import Mathlib

/-!
Verification development for the konsave manifest layer: the path
token-expansion resolver (`konsave/parse.py`, `konsave/config.py`) and the
structured content-stripping engine (`konsave/funcs.py`), together with the
manifest model (`konsave/config.py`).

Strings are modelled as lists of characters (`Str`); Python's `str` methods
(`in`, `find`, `replace`, `startswith`, `endswith`) are modelled by
executable functions on `Str`.  The fixed regular expressions of the source
are modelled by a dedicated matcher with Python's leftmost / greedy /
backtracking semantics for these particular patterns.  The filesystem
directory-listing capability (`os.listdir`) is a parameter
`fs : Str → Option (List Str)`; `none` models a listing error
(`FileNotFoundError`).  Fallible code returns `Option`; `none` models a
raised exception.
-/

namespace Konsave

abbrev Str := List Char

/-- Python `\w` (ASCII part): letters, digits, underscore. -/
def wordChar (c : Char) : Bool := c.isAlphanum || c == '_'

/-- Python `\s` (ASCII part): the whitespace characters of `\S`'s complement. -/
def spaceChar (c : Char) : Bool :=
  c == ' ' || c == '\t' || c == '\n' || c == '\r' || c == '\x0b' || c == '\x0c'

/-- Either quote character accepted by the pattern `(?:\"|')`. -/
def quoteChar (c : Char) : Bool := c == '\'' || c == '"'

/-- Splits a maximal run of characters satisfying `p` off the front of a list. -/
def splitRun (p : Char → Bool) : Str → Str × Str
  | [] => ([], [])
  | c :: cs =>
    if p c then
      let r := splitRun p cs
      (c :: r.1, r.2)
    else ([], c :: cs)

/-- Splits `l` as `arg ++ q :: '\x7d' :: rest` with `arg` all non-whitespace
(possibly empty) and `q` a quote, maximizing the length of `arg`: the
greedy-with-backtracking behaviour of `\S+(?:\"|')\x7d` (longest argument
first).  Returns `none` when no such split exists. -/
def splitArg : Str → Option (Str × Char × Str)
  | [] => none
  | c :: cs =>
    let deeper := if spaceChar c then none
      else (splitArg cs).map (fun x => (c :: x.1, x.2.1, x.2.2))
    match deeper with
    | some res => some res
    | none =>
      match cs with
      | c2 :: rest => if c2 = '\x7d' ∧ quoteChar c then some ([], c, rest) else none
      | _ => none

/-- One match of the function-token pattern
`\$\x7b\w+\=(?:\"|')\S+(?:\"|')\x7d` (the source's `raw_regex` /
`grouped_regex`): `ident` is group 1 (`\w+`), `arg` is group 2 (`\S+`),
`matched` is the full match and `rest` is the remainder of the input after
the match. -/
structure FuncMatch where
  ident : Str
  arg : Str
  matched : Str
  rest : Str
deriving DecidableEq, Repr

/-- Attempts to match the function-token pattern at the head of `s`. -/
def matchFunc (s : Str) : Option FuncMatch :=
  match s with
  | c0 :: c1 :: r1 =>
    if c0 = '$' ∧ c1 = '\x7b' then
      let p := splitRun wordChar r1
      if p.1 = [] then none
      else
        match p.2 with
        | ce :: q1 :: r3 =>
          if ce = '=' ∧ quoteChar q1 then
            match splitArg r3 with
            | some (arg, q2, rest) =>
              if arg = [] then none
              else some ⟨p.1, arg,
                '$' :: '\x7b' :: (p.1 ++ '=' :: q1 :: (arg ++ [q2, '\x7d'])), rest⟩
            | none => none
          else none
        | _ => none
    else none
  | _ => none

/-- Fuelled scan for all non-overlapping matches, leftmost first: after a
match the scan resumes after it, otherwise it advances one character. -/
def searchAllFuel : Nat → Str → List FuncMatch
  | 0, _ => []
  | _ + 1, [] => []
  | fuel + 1, c :: cs =>
    match matchFunc (c :: cs) with
    | some fm => fm :: searchAllFuel fuel fm.rest
    | none => searchAllFuel fuel cs

/-- All matches of the function-token pattern in `s`, leftmost first. -/
def searchAll (s : Str) : List FuncMatch := searchAllFuel (s.length + 1) s

/-- Python `re.search` with the function-token pattern: the leftmost match. -/
def search (s : Str) : Option FuncMatch := (searchAll s).head?

/-- Python `re.findall` with the source's `raw_regex` (only non-capturing
groups, so the full match strings are returned). -/
def findall (s : Str) : List Str := (searchAll s).map (·.matched)

/-- Python `str.find`: index of the first occurrence of `needle` in `s`
(`none` models `-1`). -/
def findSub : Str → Str → Option Nat
  | [], n => if n.isEmpty then some 0 else none
  | c :: cs, n => if n.isPrefixOf (c :: cs) then some 0 else (findSub cs n).map (· + 1)

/-- Python's substring containment `needle in hay`. -/
def hasSub (needle hay : Str) : Bool := (findSub hay needle).isSome

/-- Fuelled worker for `replaceAll`. -/
def replaceAllFuel : Nat → Str → Str → Str → Str
  | 0, s, _, _ => s
  | fuel + 1, s, old, new =>
    match s with
    | [] => []
    | c :: cs =>
      if old.isPrefixOf (c :: cs) then new ++ replaceAllFuel fuel ((c :: cs).drop old.length) old new
      else c :: replaceAllFuel fuel cs old new

/-- Python `str.replace`: replaces every non-overlapping occurrence of `old`
in `s` by `new`, left to right.  (All call sites of the source pass a
non-empty `old`.) -/
def replaceAll (s old new : Str) : Str :=
  if old.isEmpty then s else replaceAllFuel s.length s old new

/-- Replaces only the first occurrence of `old` in `s` by `new` (used to
state the specification's description, not by the code model). -/
def replaceFirst (s old new : Str) : Str :=
  match findSub s old with
  | none => s
  | some i => s.take i ++ new ++ s.drop (i + old.length)

/-- Splits a list of characters at every `'/'`. -/
def splitSlash : Str → List Str
  | [] => [[]]
  | c :: cs =>
    match splitSlash cs with
    | [] => [[]]
    | r :: rs => if c = '/' then [] :: r :: rs else (c :: r) :: rs

/-- Python `pathlib.Path(s).name`: the last path component after dropping
empty and `"."` components (the empty string when there is none). -/
def pathName (s : Str) : Str :=
  (((splitSlash s).filter (fun c => !c.isEmpty && !(c == ['.']))).getLast?).getD []

/-!
Path expansion (`konsave/parse.py` and `ConfEntry.parse_keywords` /
`ConfEntry.parse_functions` of `konsave/config.py`).

The keyword table of `parse.py` maps `HOME`, `CONFIG_DIR`, `SHARE_DIR`,
`BIN_DIR` (in that dict-insertion order) to the `pathlib.Path` values of
`konsave/consts.py`.  Because the values are `Path` objects and not
strings, the substitution `self.location.name.replace(word, value)` at
`config.py:56` raises `TypeError: replace() argument 2 must be str`
whenever a keyword's marker occurs in the location's final path component;
the keyword step therefore either leaves the location unchanged (marker
absent from the name) or raises.  The table's string values never reach a
successful substitution, so only the table's keys appear in the model.
-/

/-- The keys of `tokens["keywords"]["dict"]`, in insertion order.  The
values are `pathlib.Path` objects; any actual substitution with them
raises `TypeError` (see `parse_keywords`). -/
def keywordNames : List Str :=
  ["HOME".data, "CONFIG_DIR".data, "SHARE_DIR".data, "BIN_DIR".data]

/-- `ConfEntry.parse_keywords`: for each keyword in table order, when
`"$" + key` occurs in `self.location.name` (the final path component), the
code evaluates `self.location.name.replace(word, value)` with `value` a
`pathlib.Path` — a `TypeError`, modelled as `none`; a keyword whose marker
does not occur in the name is a no-op. -/
def parse_keywords (loc : Str) : Option Str :=
  keywordNames.foldlM
    (fun loc key =>
      let word := '$' :: key
      if hasSub word (pathName loc) then none
      else some loc)
    loc

/-- `parse.ends_with`: resolves the first function-token occurrence of
`path` by listing the directory named by the text before the occurrence and
returning `path.replace(occurence, d)` for the first entry `d` ending with
the argument, or the occurrence itself when no entry matches.  `none`
models a raised exception (`re.search` returning `None`, or `os.listdir`
failing). -/
def ends_with (fs : Str → Option (List Str)) (path : Str) : Option Str :=
  match search path with
  | none => none
  | some fm =>
    let occ := fm.matched
    let cutStr := match findSub path occ with
      | some i => path.take i
      | none => path.take (path.length - 1)
    match fs cutStr with
    | none => none
    | some dirs =>
      match search occ with
      | none => none
      | some fm2 =>
        match dirs.find? (fun d => fm2.arg.isSuffixOf d) with
        | some d => some (replaceAll path occ d)
        | none => some occ

/-- `parse.begins_with`: like `ends_with` with a `startswith` test. -/
def begins_with (fs : Str → Option (List Str)) (path : Str) : Option Str :=
  match search path with
  | none => none
  | some fm =>
    let occ := fm.matched
    let cutStr := match findSub path occ with
      | some i => path.take i
      | none => path.take (path.length - 1)
    match fs cutStr with
    | none => none
    | some dirs =>
      match search occ with
      | none => none
      | some fm2 =>
        match dirs.find? (fun d => fm2.arg.isPrefixOf d) with
        | some d => some (replaceAll path occ d)
        | none => some occ

/-- `ConfEntry.parse_functions`: finds all function-token matches in
`self.location.name`, and for each match whose identifier (group 1 of a
re-search on the match string) names a known function, replaces the
location by that function's result on the current `self.location.name`.
Unknown identifiers are skipped. -/
def parse_functions (fs : Str → Option (List Str)) (loc : Str) : Option Str :=
  (findall (pathName loc)).foldlM
    (fun acc m =>
      match search m with
      | none => none
      | some fm =>
        if fm.ident = "ENDS_WITH".data then ends_with fs (pathName acc)
        else if fm.ident = "BEGINS_WITH".data then begins_with fs (pathName acc)
        else some acc)
    loc

/-- `ConfEntry.__post_init__`'s location processing: the keyword pass
followed by the function pass (a `TypeError` in the keyword pass aborts
before the function pass runs). -/
def expand (fs : Str → Option (List Str)) (loc : Str) : Option Str :=
  (parse_keywords loc).bind (parse_functions fs)

/-- Modelled from the claim's words (C1): the keyword table with each
keyword's `pathlib.Path` value rendered as its literal path text, derived
from a home directory `home` as in `consts.py`.  The claim treats the
values as substitutable strings, which the source's `Path` objects are
not. -/
def claimKeywordTable (home : Str) : List (Str × Str) :=
  [("HOME".data, home),
   ("CONFIG_DIR".data, home ++ "/.config".data),
   ("SHARE_DIR".data, home ++ "/.local/share".data),
   ("BIN_DIR".data, home ++ "/.local/bin".data)]

/-- Modelled from the claim's words (C1): independently substituting each
keyword marker with its literal value in keyword-table order, the
substitution applying to the first textual occurrence of the marker in the
whole string. -/
def claimKeywordSubst (home : Str) (loc : Str) : Str :=
  (claimKeywordTable home).foldl (fun loc kv => replaceFirst loc ('$' :: kv.1) kv.2) loc

/-!
Content stripping (`strip_content` with its inner `strip_groups` and
`strip_keys`, `konsave/funcs.py`).  A file's content is a `List Str` of
lines (`splitlines`).  `none` models a raised exception (`list.index` on a
value no longer present raises `ValueError`).
-/

/-- The sentinel placeholder line of `strip_content`. -/
def placeholder : Str := "# stripped by konsave".data

/-- Whether a line matches the compiled pattern `^\[.*\].*` used by
`re.match` in `strip_groups`: the line starts with `'['` and contains `']'`
somewhere after it. -/
def isHeader (l : Str) : Bool :=
  match l with
  | '[' :: rest => rest.contains ']'
  | _ => false

/-- The group-header marker `f"[\x7bgroup\x7d]"` searched for as a substring. -/
def marker (g : Str) : Str := '[' :: (g ++ [']'])

/-- The key marker `f"\x7bkey\x7d="` searched for as a substring. -/
def keymark (k : Str) : Str := k ++ ['=']

/-- The scan `for line in range(group_idx, len(file_content))`: replaces
every line by the placeholder until a line matching `^\[.*\].*` is reached;
that boundary line and everything after it are left unchanged. -/
def replaceUntilHeader : List Str → List Str
  | [] => []
  | l :: ls => if isHeader l then l :: ls else placeholder :: replaceUntilHeader ls

/-- One `group_line` step of `strip_groups` at index `idx`: the header line
is replaced by the placeholder, then the scan runs from `idx` (the freshly
placed placeholder does not match the header pattern, so the scan replaces
it again and continues). -/
def stripGroupAt (c : List Str) (idx : Nat) : List Str :=
  let c2 := c.set idx placeholder
  c2.take idx ++ replaceUntilHeader (c2.drop idx)

/-- Python `list.index` (as `Option`): the index of the first element equal
to `line`; `none` models the `ValueError` raised when the value is absent. -/
def indexOf? : List Str → Str → Option Nat
  | [], _ => none
  | x :: xs, v => if x = v then some 0 else (indexOf? xs v).map (· + 1)

/-- One `group_line` iteration of `strip_groups`: look the snapshot value up
in the current content and run the header-replacement scan there. -/
def groupStep (acc : List Str) (line : Str) : Option (List Str) :=
  match indexOf? acc line with
  | none => none
  | some idx => some (stripGroupAt acc idx)

/-- The body of `strip_groups` for a single group: snapshot every line
containing `[group]`, then run `groupStep` for each snapshot value in
order. -/
def stripGroup (c : List Str) (g : Str) : Option (List Str) :=
  (c.filter (fun l => hasSub (marker g) l)).foldlM groupStep c

/-- `strip_groups`: the groups processed in specification order. -/
def strip_groups (c : List Str) (groups : List Str) : Option (List Str) :=
  groups.foldlM (fun acc g => stripGroup acc g) c

/-- One `key_line` iteration of `strip_keys`: look the snapshot value up in
the current content and replace that line with the placeholder. -/
def keyStep (acc : List Str) (line : Str) : Option (List Str) :=
  match indexOf? acc line with
  | none => none
  | some idx => some (acc.set idx placeholder)

/-- The body of `strip_keys` for a single key: snapshot every line
containing `key=`, then run `keyStep` for each snapshot value in order. -/
def stripKey (c : List Str) (k : Str) : Option (List Str) :=
  (c.filter (fun l => hasSub (keymark k) l)).foldlM keyStep c

/-- `strip_keys`: the keys processed in specification order. -/
def strip_keys (c : List Str) (keys : List Str) : Option (List Str) :=
  keys.foldlM (fun acc k => stripKey acc k) c

/-- `strip_content` on the split lines of the file, with
`strip_args = \x7b"groups": groups, "keys": keys\x7d`: the group pass, the
key pass, then removal of every placeholder line. -/
def strip_content (c : List Str) (groups keys : List Str) : Option (List Str) := do
  let c1 ← strip_groups c groups
  let c2 ← strip_keys c1 keys
  some (c2.filter (fun l => !(l == placeholder)))

/-!
Claim-side description of group removal (C3): replace each line containing
`[group]` with the placeholder, and after each such line keep replacing
until a line that starts with `[` and contains `]` (that boundary line is
not replaced), in a single left-to-right pass.
-/

mutual

/-- Single-pass group removal as the claim describes it: outside any
matched group's scan region. -/
def specGroup (g : Str) : List Str → List Str
  | [] => []
  | l :: ls =>
    if hasSub (marker g) l then placeholder :: specGroupAfter g ls
    else l :: specGroup g ls

/-- Single-pass group removal as the claim describes it: inside the scan
region following a matched line; a header line ends the region (and is kept
unless it itself contains the marker). -/
def specGroupAfter (g : Str) : List Str → List Str
  | [] => []
  | l :: ls =>
    if isHeader l then
      (if hasSub (marker g) l then placeholder :: specGroupAfter g ls
       else l :: specGroup g ls)
    else placeholder :: specGroupAfter g ls

end

/-- The claim-side group pass over all groups, in specification order. -/
def specGroups (c : List Str) (groups : List Str) : List Str :=
  groups.foldl (fun acc g => specGroup g acc) c

/-!
Manifest model (`konsave/config.py`): the parsed YAML tree, the recursive
null normalization of `Config.__init__`, and the typed
`StripEntry` / `ConfEntry` / `Section` / `Config` layers with their
`from_dict` / `to_dict` (de)serialization.  Mappings are association lists
in insertion order (Python dicts preserve insertion order, and both
directions walk keys in that order).  `none` models a raised exception
(`KeyError` for a missing field, `AttributeError` for `.keys()` on a
non-dict, and any expansion failure inside `__post_init__`).
-/

/-- A parsed YAML tree. -/
inductive Node where
  | null : Node
  | scalar : Str → Node
  | seq : List Node → Node
  | mapn : List (Str × Node) → Node

mutual

/-- `convert_none_to_empty_list`: recursively walks lists and mappings and
turns every `None` into an empty list. -/
def convertN : Node → Node
  | Node.null => Node.seq []
  | Node.scalar s => Node.scalar s
  | Node.seq xs => Node.seq (convertL xs)
  | Node.mapn kvs => Node.mapn (convertKV kvs)

/-- `convert_none_to_empty_list` over the elements of a list. -/
def convertL : List Node → List Node
  | [] => []
  | n :: ns => convertN n :: convertL ns

/-- `convert_none_to_empty_list` over the values of a mapping. -/
def convertKV : List (Str × Node) → List (Str × Node)
  | [] => []
  | kv :: kvs => (kv.1, convertN kv.2) :: convertKV kvs

end

mutual

/-- Whether a tree contains no `null` anywhere. -/
def noNullN : Node → Bool
  | Node.null => false
  | Node.scalar _ => true
  | Node.seq xs => noNullL xs
  | Node.mapn kvs => noNullKV kvs

/-- `noNullN` over the elements of a list. -/
def noNullL : List Node → Bool
  | [] => true
  | n :: ns => noNullN n && noNullL ns

/-- `noNullN` over the values of a mapping. -/
def noNullKV : List (Str × Node) → Bool
  | [] => true
  | kv :: kvs => noNullN kv.2 && noNullKV kvs

end

/-- Python `data[k]` on a dict modelled as an association list. -/
def getKey (kvs : List (Str × Node)) (k : Str) : Option Node :=
  (kvs.find? (fun kv => kv.1 == k)).map (·.2)

/-- `Option`-valued `mapM` with explicit equations. -/
def mapMO (f : α → Option β) : List α → Option (List β)
  | [] => some []
  | a :: as =>
    match f a with
    | none => none
    | some b => (mapMO f as).map (b :: ·)

/-- Reads a scalar node. -/
def asStr : Node → Option Str
  | Node.scalar s => some s
  | _ => none

/-- Reads a sequence of scalars. -/
def asStrList : Node → Option (List Str)
  | Node.seq xs => mapMO asStr xs
  | _ => none

/-- `StripEntry`: `keys` and `groups` of one strip block. -/
structure StripEntry where
  keys : List Str
  groups : List Str
deriving DecidableEq

/-- `StripEntry.from_dict`: reads `groups` and `keys` (a missing field is a
`KeyError`). -/
def StripEntry.from_dict (d : List (Str × Node)) : Option StripEntry := do
  let g ← getKey d "groups".data >>= asStrList
  let k ← getKey d "keys".data >>= asStrList
  some ⟨k, g⟩

/-- `StripEntry.to_dict`: `\x7b"groups": groups, "keys": keys\x7d`. -/
def StripEntry.to_dict (s : StripEntry) : Node :=
  Node.mapn [("groups".data, Node.seq (s.groups.map Node.scalar)),
             ("keys".data, Node.seq (s.keys.map Node.scalar))]

/-- `ConfEntry`: `location` is the expanded location, `localtion_original`
(the source's spelling) the raw location kept for `to_dict`. -/
structure ConfEntry where
  location : Str
  localtion_original : Str
  entries : List Str
  strips : List (Str × StripEntry)
deriving DecidableEq

/-- `ConfEntry.from_dict` followed by `__post_init__`: builds the strips
mapping from a `strip` block when present (`.keys()` on a non-mapping such
as a normalized null is an `AttributeError`), reads `location` and
`entries`, stores the original location, and immediately expands
`location` through the keyword and function passes. -/
def ConfEntry.from_dict (fs : Str → Option (List Str))
    (d : List (Str × Node)) : Option ConfEntry := do
  let strips ← match getKey d "strip".data with
    | none => some []
    | some (Node.mapn kvs) =>
      mapMO (fun kv => (StripEntry.from_dict (match kv.2 with
        | Node.mapn m => m
        | _ => [])).map (fun s => (kv.1, s))) kvs
    | some _ => none
  let rawLoc ← getKey d "location".data >>= asStr
  let entries ← getKey d "entries".data >>= asStrList
  let expanded ← expand fs rawLoc
  some ⟨expanded, rawLoc, entries, strips⟩

/-- `ConfEntry.to_dict`: `location` is the original location and the
`strip` key is omitted exactly when the strips mapping is empty. -/
def ConfEntry.to_dict (e : ConfEntry) : Node :=
  let base := [("location".data, Node.scalar e.localtion_original),
               ("entries".data, Node.seq (e.entries.map Node.scalar))]
  if e.strips.isEmpty then Node.mapn base
  else Node.mapn (base ++ [("strip".data,
    Node.mapn (e.strips.map (fun kv => (kv.1, kv.2.to_dict))))])

/-- `Section`: a top-level section, a mapping from entry name to entry. -/
structure Section where
  entries : List (Str × ConfEntry)
deriving DecidableEq

/-- `Section.from_dict`: every value must be a mapping. -/
def Section.from_dict (fs : Str → Option (List Str))
    (d : List (Str × Node)) : Option Section := do
  let entries ← mapMO (fun kv =>
    match kv.2 with
    | Node.mapn m => (ConfEntry.from_dict fs m).map (fun e => (kv.1, e))
    | _ => none) d
  some ⟨entries⟩

/-- `Section.to_dict`. -/
def Section.to_dict (s : Section) : Node :=
  Node.mapn (s.entries.map (fun kv => (kv.1, kv.2.to_dict)))

/-- `Config`: the manifest's sections in file order. -/
structure Config where
  sections : List (Str × Section)
deriving DecidableEq

/-- The tree-level part of `Config.__init__`: normalize nulls recursively,
then build a `Section` from every top-level key. -/
def Config.parse (fs : Str → Option (List Str))
    (y : Node) : Option Config :=
  match convertN y with
  | Node.mapn kvs =>
    (mapMO (fun kv =>
      match kv.2 with
      | Node.mapn m => (Section.from_dict fs m).map (fun s => (kv.1, s))
      | _ => none) kvs).map Config.mk
  | _ => none

/-- `Config.to_dict`. -/
def Config.to_dict (c : Config) : Node :=
  Node.mapn (c.sections.map (fun kv => (kv.1, kv.2.to_dict)))

/-- Lookup of a key in a mapping node. -/
def nodeGet (n : Node) (k : Str) : Option Node :=
  match n with
  | Node.mapn kvs => getKey kvs k
  | _ => none

/-! ### Substring lemmas -/

theorem subset_of_findSub_isSome {hay n : Str} (h : (findSub hay n).isSome) :
    ∀ a ∈ n, a ∈ hay := by
  induction hay with
  | nil =>
    intro a ha
    simp only [findSub] at h
    by_cases hn : n.isEmpty
    · rw [List.isEmpty_iff] at hn; subst hn; simp at ha
    · simp [hn] at h
  | cons c cs ih =>
    intro a ha
    simp only [findSub] at h
    by_cases hp : n.isPrefixOf (c :: cs)
    · exact (List.isPrefixOf_iff_prefix.mp hp).sublist.subset ha
    · simp only [hp, if_false, Bool.false_eq_true, Option.isSome_map'] at h
      exact List.mem_cons_of_mem _ (ih h a ha)

theorem hasSub_subset {hay n : Str} (h : hasSub n hay = true) : ∀ a ∈ n, a ∈ hay :=
  subset_of_findSub_isSome (by simpa [hasSub] using h)

/-- A group marker never occurs in the placeholder line (the marker contains
`'['`, the placeholder does not). -/
theorem marker_placeholder (g : Str) : hasSub (marker g) placeholder = false := by
  by_contra h
  rw [Bool.not_eq_false] at h
  have : '[' ∈ placeholder := hasSub_subset h '[' (by simp [marker])
  exact absurd this (by decide)

/-- A key marker never occurs in the placeholder line (the marker contains
`'='`, the placeholder does not). -/
theorem keymark_placeholder (k : Str) : hasSub (keymark k) placeholder = false := by
  by_contra h
  rw [Bool.not_eq_false] at h
  have : '=' ∈ placeholder := hasSub_subset h '=' (by simp [keymark])
  exact absurd this (by decide)

/-! ### Shape of function-token matches -/

theorem splitRun_all (p : Char → Bool) (l : Str) : (splitRun p l).1.all p = true := by
  induction l with
  | nil => rfl
  | cons c cs ih =>
    by_cases hc : p c
    · simp [splitRun, hc, ih]
    · simp [splitRun, hc]

theorem splitArg_sound {l a : Str} {q : Char} {r : Str}
    (h : splitArg l = some (a, q, r)) :
    a.all (fun c => !(spaceChar c)) = true ∧ quoteChar q = true := by
  induction l generalizing a q r with
  | nil => simp [splitArg] at h
  | cons c cs ih =>
    simp only [splitArg] at h
    by_cases hsp : spaceChar c
    · simp only [hsp, if_true] at h
      cases cs with
      | nil => simp at h
      | cons c2 cs2 =>
        simp only at h
        by_cases hg : c2 = '\x7d' ∧ quoteChar c = true
        · rw [if_pos hg] at h
          cases h
          exact ⟨rfl, hg.2⟩
        · rw [if_neg hg] at h
          cases h
    · simp only [hsp, if_false] at h
      cases hd : splitArg cs with
      | some x =>
        obtain ⟨a', q', r'⟩ := x
        rw [hd] at h
        simp only [Option.map_some'] at h
        cases h
        have := ih hd
        refine ⟨?_, this.2⟩
        simp only [List.all_cons, Bool.and_eq_true]
        exact ⟨by simp [hsp], this.1⟩
      | none =>
        rw [hd] at h
        simp only [Option.map_none'] at h
        cases cs with
        | nil => simp at h
        | cons c2 cs2 =>
          simp only at h
          by_cases hg : c2 = '\x7d' ∧ quoteChar c = true
          · rw [if_pos hg] at h
            cases h
            exact ⟨rfl, hg.2⟩
          · rw [if_neg hg] at h
            cases h

theorem matchFunc_shape {s : Str} {fm : FuncMatch} (h : matchFunc s = some fm) :
    ∃ q1 q2 : Char,
      fm.matched = '$' :: '\x7b' :: (fm.ident ++ '=' :: q1 :: (fm.arg ++ [q2, '\x7d'])) ∧
      fm.ident ≠ [] ∧ fm.ident.all wordChar = true ∧
      quoteChar q1 = true ∧ quoteChar q2 = true ∧
      fm.arg ≠ [] ∧ fm.arg.all (fun c => !(spaceChar c)) = true := by
  cases s with
  | nil => simp [matchFunc] at h
  | cons c0 s1 =>
    cases s1 with
    | nil => simp [matchFunc] at h
    | cons c1 r1 =>
      simp only [matchFunc] at h
      by_cases h01 : c0 = '$' ∧ c1 = '\x7b'
      · rw [if_pos h01] at h
        by_cases hid : (splitRun wordChar r1).1 = []
        · rw [if_pos hid] at h
          cases h
        · rw [if_neg hid] at h
          cases hp2 : (splitRun wordChar r1).2 with
          | nil => rw [hp2] at h; cases h
          | cons ce t =>
            cases t with
            | nil => rw [hp2] at h; cases h
            | cons q1 r3 =>
              rw [hp2] at h
              simp only at h
              by_cases heq : ce = '=' ∧ quoteChar q1 = true
              · rw [if_pos heq] at h
                cases hsa : splitArg r3 with
                | none => rw [hsa] at h; cases h
                | some x =>
                  obtain ⟨arg, q2, rest⟩ := x
                  rw [hsa] at h
                  simp only at h
                  by_cases harg : arg = []
                  · rw [if_pos harg] at h; cases h
                  · rw [if_neg harg] at h
                    cases h
                    refine ⟨q1, q2, rfl, hid, splitRun_all wordChar r1, heq.2,
                      (splitArg_sound hsa).2, harg, (splitArg_sound hsa).1⟩
              · rw [if_neg heq] at h
                cases h
      · rw [if_neg h01] at h
        cases h

theorem mem_searchAllFuel {n : Nat} {s : Str} {fm : FuncMatch}
    (h : fm ∈ searchAllFuel n s) : ∃ s', matchFunc s' = some fm := by
  induction n generalizing s with
  | zero => simp [searchAllFuel] at h
  | succ n ih =>
    cases s with
    | nil => simp [searchAllFuel] at h
    | cons c cs =>
      simp only [searchAllFuel] at h
      cases hm : matchFunc (c :: cs) with
      | some fm' =>
        rw [hm] at h
        rcases List.mem_cons.mp h with h1 | h2
        · exact ⟨c :: cs, by rw [hm, h1]⟩
        · exact ih h2
      | none =>
        rw [hm] at h
        exact ih h

theorem mem_findall {s m : Str} (h : m ∈ findall s) :
    ∃ fm : FuncMatch, matchFunc fm.matched = matchFunc fm.matched ∧
      (∃ s', matchFunc s' = some fm) ∧ fm.matched = m := by
  simp only [findall, List.mem_map] at h
  obtain ⟨fm, hmem, hm⟩ := h
  exact ⟨fm, rfl, mem_searchAllFuel hmem, hm⟩

/-- C9 (amended): a substring is recognized as a function-token occurrence
only when it has the form `$\x7bIDENT=q1ARGq2\x7d` where `IDENT` is a
non-empty run of word characters, `ARG` is non-empty and free of
whitespace, and `q1`, `q2` are each one of the two quote characters —
independently, so the closing quote need not match the opening quote. -/
theorem C9_function_token_shape :
    ∀ s m : Str, m ∈ findall s →
      ∃ ident arg : Str, ∃ q1 q2 : Char,
        m = '$' :: '\x7b' :: (ident ++ '=' :: q1 :: (arg ++ [q2, '\x7d'])) ∧
        ident ≠ [] ∧ ident.all wordChar = true ∧
        quoteChar q1 = true ∧ quoteChar q2 = true ∧
        arg ≠ [] ∧ arg.all (fun c => !(spaceChar c)) = true := by
  intro s m h
  obtain ⟨fm, -, ⟨s', hs'⟩, hm⟩ := mem_findall h
  obtain ⟨q1, q2, hshape, hident, hw, hq1, hq2, harg, hsp⟩ := matchFunc_shape hs'
  exact ⟨fm.ident, fm.arg, q1, q2, by rw [← hm, hshape], hident, hw, hq1, hq2, harg, hsp⟩

/-- C9 (counterexample): the occurrence `$\x7bA='x"\x7d` opens its argument
with a single quote and closes it with a double quote, yet it is recognized
by the function-token scan (`re.findall` with the source's `raw_regex`
finds exactly this match), contradicting the claim that a substring whose
closing quote differs from its opening quote is not a function-token
occurrence. -/
theorem C9_counterexample :
    findall "$\x7bA='x\"\x7d".data = ["$\x7bA='x\"\x7d".data] := by decide

/-- C9 (witness): the shape theorem applied to the mismatched-quote
occurrence. -/
theorem C9_witness :
    ∃ ident arg : Str, ∃ q1 q2 : Char,
      "$\x7bA='x\"\x7d".data =
        '$' :: '\x7b' :: (ident ++ '=' :: q1 :: (arg ++ [q2, '\x7d'])) ∧
      ident ≠ [] ∧ ident.all wordChar = true ∧
      quoteChar q1 = true ∧ quoteChar q2 = true ∧
      arg ≠ [] ∧ arg.all (fun c => !(spaceChar c)) = true :=
  C9_function_token_shape "$\x7bA='x\"\x7d".data "$\x7bA='x\"\x7d".data (by decide)

/-- C10: the final filter of `strip_content` removes every line equal to the
sentinel placeholder, even when no group or key of the specification
matched it; with empty groups and keys the output is exactly the input
minus its pre-existing sentinel lines. -/
theorem C10_sentinel_removed :
    (∀ (c : List Str) (gs ks : List Str) (out : List Str),
        strip_content c gs ks = some out → placeholder ∉ out) ∧
    (∀ c : List Str,
        strip_content c [] [] = some (c.filter (fun l => !(l == placeholder)))) := by
  constructor
  · intro c gs ks out h hmem
    unfold strip_content at h
    cases h1 : strip_groups c gs with
    | none => rw [h1] at h; cases h
    | some c1 =>
      rw [h1] at h
      simp only [Option.bind_eq_bind, Option.some_bind] at h
      cases h2 : strip_keys c1 ks with
      | none => rw [h2] at h; cases h
      | some c2 =>
        rw [h2] at h
        simp only [Option.some_bind, Option.some.injEq] at h
        subst h
        have := List.of_mem_filter hmem
        simp at this
  · intro c
    rfl

/-- C10 (witness): a pre-existing sentinel line is removed by a strip with
empty groups and keys. -/
theorem C10_witness :
    strip_content [placeholder, "x".data] [] [] = some ["x".data] ∧
    placeholder ∉ ["x".data] :=
  ⟨by decide, C10_sentinel_removed.1 [placeholder, "x".data] [] [] ["x".data] (by decide)⟩

/-- C1 (counterexample): for the raw location `$HOME/b` (with home
directory `/home/u`) the code leaves the location unchanged — the keyword
pass only examines the final path component `b`, which does not contain the
marker, so no substitution is even attempted — whereas the claim's
substitution on the whole string produces `/home/u/b`. -/
theorem C1_counterexample :
    expand (fun _ => none) "$HOME/b".data = some "$HOME/b".data ∧
    claimKeywordSubst "/home/u".data "$HOME/b".data = "/home/u/b".data ∧
    ("$HOME/b".data : Str) ≠ "/home/u/b".data := by
  refine ⟨by decide, by decide, by decide⟩

/-- C2 (counterexample): for the raw location `ab$\x7bENDS_WITH='x'\x7dcd`
with the implied parent `ab` existing but containing no entry ending in
`x`, the function pass replaces the whole location by just the occurrence
`$\x7bENDS_WITH='x'\x7d` — the surrounding text `ab`…`cd` is discarded —
whereas the claim says the result equals the original string with the
occurrence left in place. -/
theorem C2_counterexample :
    expand (fun p => if p = "ab".data then some ["zz".data] else none)
        "ab$\x7bENDS_WITH='x'\x7dcd".data = some "$\x7bENDS_WITH='x'\x7d".data ∧
    ("$\x7bENDS_WITH='x'\x7d".data : Str) ≠ "ab$\x7bENDS_WITH='x'\x7dcd".data := by
  refine ⟨by decide, by decide⟩

/-- C3 (counterexample): on `["[G]", "x[G]"]` with group `G` the code
raises `ValueError`: the scan started at the header `[G]` replaces the
matched line `x[G]` before its own iteration, and `list.index` then fails
to find it — whereas the removal described by the claim succeeds and strips
both lines. -/
theorem C3_counterexample :
    strip_content ["[G]".data, "x[G]".data] ["G".data] [] = none ∧
    (specGroups ["[G]".data, "x[G]".data] ["G".data]).filter
      (fun l => !(l == placeholder)) = ([] : List Str) := by
  refine ⟨by decide, by decide⟩

/-! ### Expansion lemmas -/

theorem foldlM_keyword_any (names : List Str) (loc : Str) :
    names.foldlM
      (fun loc key =>
        let word := '$' :: key
        if hasSub word (pathName loc) then none
        else some loc)
      loc =
    if names.any (fun key => hasSub ('$' :: key) (pathName loc)) then none
    else some loc := by
  induction names with
  | nil => rfl
  | cons k ks ih =>
    simp only [List.foldlM_cons, List.any_cons]
    by_cases hk : hasSub ('$' :: k) (pathName loc) = true
    · simp [hk]
    · rw [Bool.not_eq_true] at hk
      simp only [hk, if_false, Bool.false_eq_true, Bool.false_or,
        Option.bind_eq_bind, Option.some_bind]
      exact ih

/-- The keyword pass either fails (some keyword's marker occurs in the
final path component, so the `Path`-valued `str.replace` raises) or leaves
the location unchanged. -/
theorem parse_keywords_any (loc : Str) :
    parse_keywords loc =
      if keywordNames.any (fun key => hasSub ('$' :: key) (pathName loc)) then none
      else some loc :=
  foldlM_keyword_any keywordNames loc

theorem find?_eq_some_of_unique {p : Str → Bool} {l : List Str} {x : Str}
    (hx : x ∈ l) (hpx : p x = true) (huniq : ∀ y ∈ l, p y = true → y = x) :
    l.find? p = some x := by
  induction l with
  | nil => cases hx
  | cons a as ih =>
    by_cases hpa : p a = true
    · have : a = x := huniq a (List.mem_cons_self a as) hpa
      subst this
      rw [List.find?_cons_of_pos _ hpa]
    · rw [List.find?_cons_of_neg _ (by simpa using hpa)]
      have hxas : x ∈ as := by
        rcases List.mem_cons.mp hx with h | h
        · exact absurd (h ▸ hpx) hpa
        · exact h
      exact ih hxas (fun y hy hpy => huniq y (List.mem_cons_of_mem _ hy) hpy)

theorem ends_with_eq {fs : Str → Option (List Str)} {path : Str} {cut : Nat}
    {dirs : List Str} {fm fm2 : FuncMatch}
    (hs : search path = some fm) (h2 : search fm.matched = some fm2)
    (hc : findSub path fm.matched = some cut)
    (hfs : fs (path.take cut) = some dirs) :
    ends_with fs path =
      match dirs.find? (fun d => fm2.arg.isSuffixOf d) with
      | some d => some (replaceAll path fm.matched d)
      | none => some fm.matched := by
  unfold ends_with
  rw [hs]
  simp only [hc, hfs, h2]

theorem parse_functions_single {fs : Str → Option (List Str)} {loc : Str}
    {fm fm2 : FuncMatch}
    (h1 : searchAll (pathName loc) = [fm])
    (h2 : search fm.matched = some fm2)
    (hident : fm2.ident = "ENDS_WITH".data) :
    parse_functions fs loc = ends_with fs (pathName loc) := by
  unfold parse_functions
  have hfa : findall (pathName loc) = [fm.matched] := by
    simp only [findall, h1, List.map_cons, List.map_nil]
  rw [hfa]
  simp only [List.foldlM_cons, List.foldlM_nil, h2, hident, if_pos]
  cases ends_with fs (pathName loc) <;> rfl

/-- C2 (amended): when the single function-token occurrence of the location
is an `ENDS_WITH` token whose implied parent directory exists but contains
no entry ending with the argument, the function pass succeeds and returns
just the occurrence string as the whole new location (any surrounding path
text is discarded). -/
theorem C2_unresolved_occurrence :
    ∀ (fs : Str → Option (List Str)) (loc : Str) (fm fm2 : FuncMatch)
      (cut : Nat) (dirs : List Str),
      searchAll (pathName loc) = [fm] →
      search fm.matched = some fm2 →
      fm2.ident = "ENDS_WITH".data →
      findSub (pathName loc) fm.matched = some cut →
      fs ((pathName loc).take cut) = some dirs →
      (∀ d ∈ dirs, fm2.arg.isSuffixOf d = false) →
      parse_functions fs loc = some fm.matched := by
  intro fs loc fm fm2 cut dirs h1 h2 h3 h4 h5 h6
  rw [parse_functions_single h1 h2 h3]
  have hfind : dirs.find? (fun d => fm2.arg.isSuffixOf d) = none :=
    List.find?_eq_none.mpr (fun d hd => by simp [h6 d hd])
  rw [ends_with_eq (by rw [search, h1]; rfl) h2 h4 h5, hfind]

/-- C2 (witness): the amended theorem at the location
`ab$\x7bENDS_WITH='x'\x7dcd` whose parent `ab` lists only `zz`. -/
theorem C2_witness :
    parse_functions (fun p => if p = "ab".data then some ["zz".data] else none)
      "ab$\x7bENDS_WITH='x'\x7dcd".data = some "$\x7bENDS_WITH='x'\x7d".data :=
  C2_unresolved_occurrence _ _
    ⟨"ENDS_WITH".data, "x".data, "$\x7bENDS_WITH='x'\x7d".data, "cd".data⟩
    ⟨"ENDS_WITH".data, "x".data, "$\x7bENDS_WITH='x'\x7d".data, []⟩
    2 ["zz".data] (by decide) (by decide) (by decide) (by decide) (by decide)
    (by decide)

/-- C1 (amended): keyword expansion never substitutes.  The keyword pass
inspects only the final path component (the pathlib name) of the location:
as soon as some keyword's marker (in table order `HOME`, `CONFIG_DIR`,
`SHARE_DIR`, `BIN_DIR`) occurs in that component, the code raises
`TypeError` — `str.replace` is called with the keyword's `pathlib.Path`
value — and expansion fails; when no keyword marker occurs in the final
path component (and that component contains no function-token occurrence),
`expand` succeeds and returns the raw location unchanged. -/
theorem C1_keyword_pass :
    (∀ (fs : Str → Option (List Str)) (loc : Str),
      keywordNames.any (fun key => hasSub ('$' :: key) (pathName loc)) = true →
      expand fs loc = none) ∧
    (∀ (fs : Str → Option (List Str)) (loc : Str),
      keywordNames.any (fun key => hasSub ('$' :: key) (pathName loc)) = false →
      searchAll (pathName loc) = [] →
      expand fs loc = some loc) := by
  constructor
  · intro fs loc h
    unfold expand
    rw [parse_keywords_any, if_pos h]
    rfl
  · intro fs loc h hfn
    unfold expand
    rw [parse_keywords_any, if_neg (by simp [h])]
    show parse_functions fs loc = some loc
    unfold parse_functions
    simp only [findall, hfn, List.map_nil, List.foldlM_nil]
    rfl

/-- C1 (witness): both branches of the amended theorem — the location
`$HOME` (marker in the final path component) makes expansion raise, and
`$HOME/b` (marker not in the final path component `b`) expands to itself
untouched. -/
theorem C1_witness :
    expand (fun _ => none) "$HOME".data = none ∧
    expand (fun _ => none) "$HOME/b".data = some "$HOME/b".data :=
  ⟨C1_keyword_pass.1 (fun _ => none) "$HOME".data (by decide),
   C1_keyword_pass.2 (fun _ => none) "$HOME/b".data (by decide) (by decide)⟩

/-- C7: expanding `$\x7bENDS_WITH='conf'\x7d` consults the listing of the
implied parent directory (the text before the occurrence, here empty);
when `app.conf` is the only entry ending with `conf` the whole occurrence
resolves to `app.conf`, and when no entry ends with `conf` the original
occurrence string is returned unchanged. -/
theorem C7_ends_with_conf :
    ∀ (fs : Str → Option (List Str)) (dirs : List Str),
      fs [] = some dirs →
      (("app.conf".data ∈ dirs ∧
        (∀ d ∈ dirs, "conf".data.isSuffixOf d = true → d = "app.conf".data)) →
        expand fs "$\x7bENDS_WITH='conf'\x7d".data = some "app.conf".data) ∧
      ((∀ d ∈ dirs, "conf".data.isSuffixOf d = false) →
        expand fs "$\x7bENDS_WITH='conf'\x7d".data =
          some "$\x7bENDS_WITH='conf'\x7d".data) := by
  intro fs dirs hfs
  have hkw : parse_keywords "$\x7bENDS_WITH='conf'\x7d".data =
      some "$\x7bENDS_WITH='conf'\x7d".data := rfl
  have hsa : searchAll (pathName "$\x7bENDS_WITH='conf'\x7d".data) =
      [⟨"ENDS_WITH".data, "conf".data, "$\x7bENDS_WITH='conf'\x7d".data, []⟩] := by
    decide
  have hsm : search "$\x7bENDS_WITH='conf'\x7d".data =
      some ⟨"ENDS_WITH".data, "conf".data, "$\x7bENDS_WITH='conf'\x7d".data, []⟩ := by
    decide
  have hpn : pathName "$\x7bENDS_WITH='conf'\x7d".data =
      "$\x7bENDS_WITH='conf'\x7d".data := by decide
  have hexp : ∀ r, parse_functions fs "$\x7bENDS_WITH='conf'\x7d".data = r →
      expand fs "$\x7bENDS_WITH='conf'\x7d".data = r := by
    intro r hr
    unfold expand
    rw [hkw]
    simpa using hr
  have hew := @ends_with_eq fs "$\x7bENDS_WITH='conf'\x7d".data 0 dirs _ _ hsm hsm
    (by decide) (by simpa using hfs)
  constructor
  · rintro ⟨hmem, huniq⟩
    apply hexp
    rw [parse_functions_single hsa hsm rfl, hpn]
    have hfind : dirs.find? (fun d =>
        (FuncMatch.arg ⟨"ENDS_WITH".data, "conf".data,
          "$\x7bENDS_WITH='conf'\x7d".data, []⟩).isSuffixOf d) =
        some "app.conf".data :=
      find?_eq_some_of_unique hmem (by decide) huniq
    rw [hew, hfind]
    decide
  · intro hnone
    apply hexp
    rw [parse_functions_single hsa hsm rfl, hpn]
    have hfind : dirs.find? (fun d =>
        (FuncMatch.arg ⟨"ENDS_WITH".data, "conf".data,
          "$\x7bENDS_WITH='conf'\x7d".data, []⟩).isSuffixOf d) = none :=
      List.find?_eq_none.mpr (fun d hd => by simp [hnone d hd])
    rw [hew, hfind]

/-! ### Lemmas about `indexOf?` and index-shifted operations -/

theorem indexOf?_cons_self (v : Str) (ls : List Str) : indexOf? (v :: ls) v = some 0 := by
  simp [indexOf?]

theorem indexOf?_append_of_ne {pfx : List Str} {v : Str} (rest : List Str)
    (h : ∀ x ∈ pfx, x ≠ v) :
    indexOf? (pfx ++ rest) v = (indexOf? rest v).map (· + pfx.length) := by
  induction pfx with
  | nil => simp
  | cons a as ih =>
    have ha : a ≠ v := h a (List.mem_cons_self a as)
    rw [List.cons_append]
    show (if a = v then some 0 else (indexOf? (as ++ rest) v).map (· + 1)) =
      (indexOf? rest v).map (· + (a :: as).length)
    rw [if_neg ha, ih (fun x hx => h x (List.mem_cons_of_mem _ hx))]
    cases indexOf? rest v with
    | none => rfl
    | some i => simp [Nat.add_assoc]

theorem indexOf?_getElem {c : List Str} {v : Str} {i : Nat}
    (h : indexOf? c v = some i) : c.get? i = some v := by
  induction c generalizing i with
  | nil => simp [indexOf?] at h
  | cons a as ih =>
    simp only [indexOf?] at h
    by_cases ha : a = v
    · rw [if_pos ha] at h
      cases h
      simp [ha]
    · rw [if_neg ha] at h
      cases hi : indexOf? as v with
      | none => rw [hi] at h; cases h
      | some j =>
        rw [hi] at h
        simp only [Option.map_some', Option.some.injEq] at h
        subst h
        simpa using ih hi

theorem set_append_shift (pfx rest : List Str) (i : Nat) (x : Str) :
    (pfx ++ rest).set (pfx.length + i) x = pfx ++ rest.set i x := by
  rw [List.set_append]
  simp

theorem stripGroupAt_append (pfx rest : List Str) (i : Nat) :
    stripGroupAt (pfx ++ rest) (pfx.length + i) = pfx ++ stripGroupAt rest i := by
  simp only [stripGroupAt]
  rw [set_append_shift]
  rw [List.take_append i, List.drop_append i]
  simp [List.append_assoc]

theorem keyStep_append {pfx rest : List Str} {v : Str} (h : ∀ x ∈ pfx, x ≠ v) :
    keyStep (pfx ++ rest) v = (keyStep rest v).map (pfx ++ ·) := by
  unfold keyStep
  rw [indexOf?_append_of_ne rest h]
  cases hi : indexOf? rest v with
  | none => rfl
  | some i =>
    simp only [Option.map_some']
    rw [Nat.add_comm i pfx.length, set_append_shift]

theorem groupStep_append {pfx rest : List Str} {v : Str} (h : ∀ x ∈ pfx, x ≠ v) :
    groupStep (pfx ++ rest) v = (groupStep rest v).map (pfx ++ ·) := by
  unfold groupStep
  rw [indexOf?_append_of_ne rest h]
  cases hi : indexOf? rest v with
  | none => rfl
  | some i =>
    simp only [Option.map_some']
    rw [Nat.add_comm i pfx.length, stripGroupAt_append]

theorem foldlM_keyStep_append (vs : List Str) (pfx rest : List Str)
    (h : ∀ v ∈ vs, ∀ x ∈ pfx, x ≠ v) :
    vs.foldlM keyStep (pfx ++ rest) = (vs.foldlM keyStep rest).map (pfx ++ ·) := by
  induction vs generalizing rest with
  | nil => rfl
  | cons v vs ih =>
    simp only [List.foldlM_cons]
    rw [keyStep_append (h v (List.mem_cons_self v vs))]
    cases hs : keyStep rest v with
    | none => rfl
    | some rest' =>
      simp only [Option.map_some', Option.some_bind]
      exact ih rest' (fun w hw x hx => h w (List.mem_cons_of_mem _ hw) x hx)

theorem foldlM_groupStep_append (vs : List Str) (pfx rest : List Str)
    (h : ∀ v ∈ vs, ∀ x ∈ pfx, x ≠ v) :
    vs.foldlM groupStep (pfx ++ rest) = (vs.foldlM groupStep rest).map (pfx ++ ·) := by
  induction vs generalizing rest with
  | nil => rfl
  | cons v vs ih =>
    simp only [List.foldlM_cons]
    rw [groupStep_append (h v (List.mem_cons_self v vs))]
    cases hs : groupStep rest v with
    | none => rfl
    | some rest' =>
      simp only [Option.map_some', Option.some_bind]
      exact ih rest' (fun w hw x hx => h w (List.mem_cons_of_mem _ hw) x hx)

/-! ### The key pass is a pointwise map -/

theorem stripKey_eq_map (c : List Str) (k : Str) :
    stripKey c k =
      some (c.map (fun l => if hasSub (keymark k) l then placeholder else l)) := by
  induction c with
  | nil => rfl
  | cons l ls ih =>
    unfold stripKey
    by_cases hm : hasSub (keymark k) l = true
    · rw [List.filter_cons_of_pos hm]
      simp only [List.foldlM_cons]
      have h0 : keyStep (l :: ls) l = some (placeholder :: ls) := by
        unfold keyStep
        rw [indexOf?_cons_self]
        rfl
      rw [h0]
      simp only [Option.bind_eq_bind, Option.some_bind]
      have : (ls.filter (fun l => hasSub (keymark k) l)).foldlM keyStep
          ([placeholder] ++ ls) =
          ((ls.filter (fun l => hasSub (keymark k) l)).foldlM keyStep ls).map
            ([placeholder] ++ ·) := by
        apply foldlM_keyStep_append
        intro v hv x hx
        rcases List.mem_singleton.mp hx with rfl
        intro he
        have := List.of_mem_filter hv
        rw [← he] at this
        rw [keymark_placeholder k] at this
        cases this
      rw [show placeholder :: ls = [placeholder] ++ ls from rfl, this]
      rw [show (ls.filter (fun l => hasSub (keymark k) l)).foldlM keyStep ls =
        stripKey ls k from rfl, ih]
      simp [hm]
    · rw [List.filter_cons_of_neg (by simpa using hm)]
      have : (ls.filter (fun l => hasSub (keymark k) l)).foldlM keyStep ([l] ++ ls) =
          ((ls.filter (fun l => hasSub (keymark k) l)).foldlM keyStep ls).map
            ([l] ++ ·) := by
        apply foldlM_keyStep_append
        intro v hv x hx
        rcases List.mem_singleton.mp hx with rfl
        intro he
        have := List.of_mem_filter hv
        rw [← he] at this
        exact hm this
      rw [show (l :: ls : List Str) = [l] ++ ls from rfl, this]
      rw [show (ls.filter (fun l => hasSub (keymark k) l)).foldlM keyStep ls =
        stripKey ls k from rfl, ih]
      simp [hm]

theorem strip_keys_eq_map (ks : List Str) (c : List Str) :
    strip_keys c ks =
      some (c.map (fun l =>
        if ks.any (fun k => hasSub (keymark k) l) then placeholder else l)) := by
  induction ks generalizing c with
  | nil => simp [strip_keys]
  | cons k ks ih =>
    unfold strip_keys
    simp only [List.foldlM_cons]
    rw [show stripKey c k = stripKey c k from rfl]
    rw [stripKey_eq_map]
    simp only [Option.bind_eq_bind, Option.some_bind]
    rw [show (ks.foldlM (fun acc k => stripKey acc k)
      (c.map (fun l => if hasSub (keymark k) l then placeholder else l))) =
      strip_keys (c.map (fun l => if hasSub (keymark k) l then placeholder else l)) ks
      from rfl]
    rw [ih]
    rw [List.map_map]
    apply congrArg some
    apply List.map_eq_map_iff.mpr
    intro l hl
    by_cases hm : hasSub (keymark k) l = true
    · simp only [Function.comp, hm, if_true, List.any_cons, Bool.true_or]
      have : ∀ k' ∈ ks, hasSub (keymark k') placeholder = false :=
        fun k' _ => keymark_placeholder k'
      by_cases hany : ks.any (fun k' => hasSub (keymark k') placeholder) = true
      · simp [hany]
      · simp [hm]
    · simp only [Function.comp, hm, if_false, List.any_cons]
      simp [hm]

/-! ### The group pass matches the claim's single-pass description when
every matched line is header-shaped -/

theorem isHeader_placeholder : isHeader placeholder = false := rfl

theorem replaceUntilHeader_split (ls : List Str) :
    ∃ pre rest, ls = pre ++ rest ∧ (∀ x ∈ pre, isHeader x = false) ∧
      replaceUntilHeader ls = pre.map (fun _ => placeholder) ++ rest ∧
      (rest = [] ∨ ∃ h t, rest = h :: t ∧ isHeader h = true) := by
  induction ls with
  | nil => exact ⟨[], [], rfl, by simp, rfl, Or.inl rfl⟩
  | cons l ls ih =>
    by_cases hl : isHeader l = true
    · refine ⟨[], l :: ls, rfl, by simp, ?_, Or.inr ⟨l, ls, rfl, hl⟩⟩
      simp [replaceUntilHeader, hl]
    · obtain ⟨pre, rest, hls, hpre, hru, hbound⟩ := ih
      refine ⟨l :: pre, rest, by rw [List.cons_append, ← hls], ?_, ?_, hbound⟩
      · intro x hx
        rcases List.mem_cons.mp hx with rfl | hx
        · simpa using hl
        · exact hpre x hx
      · have hl2 : isHeader l = false := by simpa using hl
        simp only [replaceUntilHeader, hl2, Bool.false_eq_true, if_false, List.map_cons,
          List.cons_append]
        rw [hru]

theorem specGroupAfter_append_nonheader (g : Str) (pre rest : List Str)
    (hpre : ∀ x ∈ pre, isHeader x = false) :
    specGroupAfter g (pre ++ rest) =
      pre.map (fun _ => placeholder) ++ specGroupAfter g rest := by
  induction pre with
  | nil => rfl
  | cons x pre ih =>
    have hx : isHeader x = false := hpre x (List.mem_cons_self x pre)
    rw [List.cons_append]
    rw [show specGroupAfter g (x :: (pre ++ rest)) =
      if isHeader x = true then
        (if hasSub (marker g) x = true then placeholder :: specGroupAfter g (pre ++ rest)
         else x :: specGroup g (pre ++ rest))
      else placeholder :: specGroupAfter g (pre ++ rest) from rfl]
    rw [hx]
    simp only [Bool.false_eq_true, if_false, List.map_cons, List.cons_append]
    rw [ih (fun y hy => hpre y (List.mem_cons_of_mem _ hy))]

theorem specGroupAfter_eq_specGroup (g : Str) (rest : List Str)
    (hb : rest = [] ∨ ∃ h t, rest = h :: t ∧ isHeader h = true) :
    specGroupAfter g rest = specGroup g rest := by
  rcases hb with rfl | ⟨h, t, rfl, hh⟩
  · rfl
  · simp [specGroup, specGroupAfter, hh]

theorem stripGroup_eq_spec_aux (g : Str) :
    ∀ (n : Nat) (c : List Str), c.length ≤ n →
      (∀ l ∈ c, hasSub (marker g) l = true → isHeader l = true) →
      stripGroup c g = some (specGroup g c) := by
  intro n
  induction n with
  | zero =>
    intro c hc _
    rw [List.length_eq_zero.mp (Nat.le_zero.mp hc)]
    rfl
  | succ n ih =>
    intro c hc H
    cases c with
    | nil => rfl
    | cons l ls =>
      by_cases hm : hasSub (marker g) l = true
      · unfold stripGroup
        rw [List.filter_cons_of_pos hm]
        simp only [List.foldlM_cons]
        have h0 : groupStep (l :: ls) l = some (placeholder :: replaceUntilHeader ls) := by
          unfold groupStep
          rw [indexOf?_cons_self]
          simp [stripGroupAt, replaceUntilHeader, isHeader_placeholder]
        rw [h0]
        simp only [Option.bind_eq_bind, Option.some_bind]
        obtain ⟨pre, rest, hls, hpre, hru, hbound⟩ := replaceUntilHeader_split ls
        have hfil : ls.filter (fun l => hasSub (marker g) l) =
            rest.filter (fun l => hasSub (marker g) l) := by
          rw [hls, List.filter_append]
          have : pre.filter (fun l => hasSub (marker g) l) = [] := by
            apply List.filter_eq_nil_iff.mpr
            intro x hx hsx
            have hxc : x ∈ l :: ls := by
              rw [hls]
              exact List.mem_cons_of_mem _ (List.mem_append_left _ hx)
            have := H x hxc (by simpa using hsx)
            rw [hpre x hx] at this
            cases this
          rw [this, List.nil_append]
        rw [hfil, hru]
        have happ := foldlM_groupStep_append
          (rest.filter (fun l => hasSub (marker g) l))
          (placeholder :: pre.map (fun _ => placeholder)) rest
          (by
            intro v hv x hx
            have hvm : hasSub (marker g) v = true := by
              simpa using List.of_mem_filter hv
            have hxph : x = placeholder := by
              rcases List.mem_cons.mp hx with rfl | hx2
              · rfl
              · obtain ⟨a, -, ha⟩ := List.mem_map.mp hx2
                exact ha.symm
            subst hxph
            intro he
            rw [← he, marker_placeholder g] at hvm
            cases hvm)
        rw [show (placeholder :: (pre.map (fun _ => placeholder) ++ rest) : List Str) =
          (placeholder :: pre.map (fun _ => placeholder)) ++ rest from rfl, happ]
        have hlen : rest.length ≤ n := by
          have h1 : ls.length ≤ n := by
            simpa using Nat.le_of_succ_le_succ (by simpa using hc)
          have h2 : rest.length ≤ ls.length := by
            rw [hls, List.length_append]
            omega
          omega
        have Hrest : ∀ l ∈ rest, hasSub (marker g) l = true → isHeader l = true := by
          intro x hx hsx
          apply H x _ hsx
          rw [hls]
          exact List.mem_cons_of_mem _ (List.mem_append_right _ hx)
        rw [show (rest.filter (fun l => hasSub (marker g) l)).foldlM groupStep rest =
          stripGroup rest g from rfl, ih rest hlen Hrest]
        simp only [Option.map_some', Option.some.injEq]
        show placeholder :: pre.map (fun _ => placeholder) ++ specGroup g rest =
          specGroup g (l :: ls)
        rw [show specGroup g (l :: ls) =
          placeholder :: specGroupAfter g ls from by simp [specGroup, hm]]
        rw [hls, specGroupAfter_append_nonheader g pre rest hpre,
          specGroupAfter_eq_specGroup g rest hbound, List.cons_append]
      · unfold stripGroup
        rw [List.filter_cons_of_neg (by simpa using hm)]
        have happ := foldlM_groupStep_append
          (ls.filter (fun l => hasSub (marker g) l)) [l] ls
          (by
            intro v hv x hx
            rcases List.mem_singleton.mp hx with rfl
            intro he
            have hvm : hasSub (marker g) v = true := by
              simpa using List.of_mem_filter hv
            rw [← he] at hvm
            exact hm hvm)
        rw [show (l :: ls : List Str) = [l] ++ ls from rfl, happ]
        have hlen : ls.length ≤ n := by simpa using Nat.le_of_succ_le_succ (by simpa using hc)
        have Hls : ∀ x ∈ ls, hasSub (marker g) x = true → isHeader x = true :=
          fun x hx hsx => H x (List.mem_cons_of_mem _ hx) hsx
        rw [show (ls.filter (fun l => hasSub (marker g) l)).foldlM groupStep ls =
          stripGroup ls g from rfl, ih ls hlen Hls]
        simp only [Option.map_some', Option.some.injEq]
        show [l] ++ specGroup g ls = specGroup g (l :: ls)
        simp [specGroup, hm]

theorem stripGroup_eq_spec (g : Str) (c : List Str)
    (H : ∀ l ∈ c, hasSub (marker g) l = true → isHeader l = true) :
    stripGroup c g = some (specGroup g c) :=
  stripGroup_eq_spec_aux g c.length c le_rfl H

theorem specGroup_mem (g : Str) :
    ∀ c : List Str, (∀ l ∈ specGroup g c, l ∈ c ∨ l = placeholder) ∧
      (∀ l ∈ specGroupAfter g c, l ∈ c ∨ l = placeholder) := by
  intro c
  induction c with
  | nil => exact ⟨by simp [specGroup], by simp [specGroupAfter]⟩
  | cons a c ih =>
    constructor
    · intro l hl
      simp only [specGroup] at hl
      by_cases hm : hasSub (marker g) a = true
      · rw [if_pos hm] at hl
        rcases List.mem_cons.mp hl with rfl | hl
        · exact Or.inr rfl
        · rcases ih.2 l hl with h | h
          · exact Or.inl (List.mem_cons_of_mem _ h)
          · exact Or.inr h
      · rw [if_neg hm] at hl
        rcases List.mem_cons.mp hl with rfl | hl
        · exact Or.inl (List.mem_cons_self _ _)
        · rcases ih.1 l hl with h | h
          · exact Or.inl (List.mem_cons_of_mem _ h)
          · exact Or.inr h
    · intro l hl
      simp only [specGroupAfter] at hl
      by_cases hh : isHeader a = true
      · rw [if_pos hh] at hl
        by_cases hm : hasSub (marker g) a = true
        · rw [if_pos hm] at hl
          rcases List.mem_cons.mp hl with rfl | hl
          · exact Or.inr rfl
          · rcases ih.2 l hl with h | h
            · exact Or.inl (List.mem_cons_of_mem _ h)
            · exact Or.inr h
        · rw [if_neg hm] at hl
          rcases List.mem_cons.mp hl with rfl | hl
          · exact Or.inl (List.mem_cons_self _ _)
          · rcases ih.1 l hl with h | h
            · exact Or.inl (List.mem_cons_of_mem _ h)
            · exact Or.inr h
      · rw [if_neg hh] at hl
        rcases List.mem_cons.mp hl with rfl | hl
        · exact Or.inr rfl
        · rcases ih.2 l hl with h | h
          · exact Or.inl (List.mem_cons_of_mem _ h)
          · exact Or.inr h

theorem strip_groups_eq_spec (gs : List Str) (c : List Str)
    (H : ∀ g ∈ gs, ∀ l ∈ c, hasSub (marker g) l = true → isHeader l = true) :
    strip_groups c gs = some (specGroups c gs) := by
  induction gs generalizing c with
  | nil => rfl
  | cons g gs ih =>
    unfold strip_groups
    simp only [List.foldlM_cons]
    rw [show stripGroup c g = some (specGroup g c) from
      stripGroup_eq_spec g c (H g (List.mem_cons_self g gs))]
    simp only [Option.bind_eq_bind, Option.some_bind]
    have H2 : ∀ g' ∈ gs, ∀ l ∈ specGroup g c,
        hasSub (marker g') l = true → isHeader l = true := by
      intro g' hg' l hl hsl
      rcases (specGroup_mem g c).1 l hl with h | h
      · exact H g' (List.mem_cons_of_mem _ hg') l h hsl
      · rw [h, marker_placeholder g'] at hsl
        cases hsl
    exact ih (specGroup g c) H2

/-- C3 (amended): provided every line containing `[groupName]` itself
starts with `[` and contains `]` (i.e. is header-shaped), group removal
replaces each line containing `[groupName]` and every subsequent line with
the placeholder until a boundary header line (kept) or end of file, for all
groups in specification order; and the claim's concrete example holds.
Without the proviso the code can raise `ValueError` (see the
counterexample). -/
theorem C3_group_removal :
    (∀ (c : List Str) (gs : List Str),
      (∀ g ∈ gs, ∀ l ∈ c, hasSub (marker g) l = true → isHeader l = true) →
      strip_groups c gs = some (specGroups c gs)) ∧
    strip_content
      ["[General]".data, "a=1".data, "b=2".data, "[Other]".data, "c=3".data]
      ["General".data] [] = some ["[Other]".data, "c=3".data] :=
  ⟨fun c gs H => strip_groups_eq_spec gs c H, by decide⟩

/-- C3 (witness): the equivalence applied to the claim's example lines. -/
theorem C3_witness :
    strip_groups
      ["[General]".data, "a=1".data, "b=2".data, "[Other]".data, "c=3".data]
      ["General".data] =
      some (specGroups
        ["[General]".data, "a=1".data, "b=2".data, "[Other]".data, "c=3".data]
        ["General".data]) ∧
    specGroups ["[General]".data, "a=1".data, "b=2".data, "[Other]".data, "c=3".data]
      ["General".data] =
      [placeholder, placeholder, placeholder, "[Other]".data, "c=3".data] :=
  ⟨C3_group_removal.1 _ _ (by decide), by decide⟩

/-! ### Idempotence machinery: the group pass only turns lines into the
placeholder, and leaves no line containing a processed marker -/

/-- Pointwise "kept or replaced by the placeholder". -/
abbrev KeepPh (a b : List Str) : Prop :=
  List.Forall₂ (fun x y => y = x ∨ y = placeholder) a b

theorem KeepPh.refl (a : List Str) : KeepPh a a :=
  List.forall₂_same.mpr (fun _ _ => Or.inl rfl)

theorem KeepPh.trans {a b c : List Str} (h1 : KeepPh a b) (h2 : KeepPh b c) :
    KeepPh a c := by
  induction h1 generalizing c with
  | nil => cases h2; exact List.Forall₂.nil
  | cons hr _ ih =>
    cases h2 with
    | cons hr2 ht2 =>
      refine List.Forall₂.cons ?_ (ih ht2)
      rcases hr2 with rfl | rfl
      · exact hr
      · exact Or.inr rfl

theorem KeepPh.append {a b c d : List Str} (h1 : KeepPh a b) (h2 : KeepPh c d) :
    KeepPh (a ++ c) (b ++ d) := List.rel_append h1 h2

theorem KeepPh.mem {a b : List Str} (h : KeepPh a b) {l : Str} (hl : l ∈ b) :
    l ∈ a ∨ l = placeholder := by
  induction h with
  | nil => cases hl
  | cons hr _ ih =>
    rcases List.mem_cons.mp hl with rfl | hl2
    · rcases hr with rfl | rfl
      · exact Or.inl (List.mem_cons_self _ _)
      · exact Or.inr rfl
    · rcases ih hl2 with h | h
      · exact Or.inl (List.mem_cons_of_mem _ h)
      · exact Or.inr h

theorem KeepPh.count_le {a b : List Str} (h : KeepPh a b) {v : Str}
    (hv : v ≠ placeholder) : b.count v ≤ a.count v := by
  induction h with
  | nil => exact Nat.le_refl 0
  | @cons x y l1 l2 hr htl ih =>
    rcases hr with rfl | rfl
    · by_cases hyv : v = y
      · subst hyv
        rw [List.count_cons_self, List.count_cons_self]
        omega
      · rw [List.count_cons_of_ne hyv, List.count_cons_of_ne hyv]
        exact ih
    · rw [List.count_cons_of_ne hv]
      by_cases hxv : v = x
      · subst hxv
        rw [List.count_cons_self]
        omega
      · rw [List.count_cons_of_ne hxv]
        exact ih

theorem replaceUntilHeader_keepPh (c : List Str) : KeepPh c (replaceUntilHeader c) := by
  induction c with
  | nil => exact List.Forall₂.nil
  | cons l ls ih =>
    unfold replaceUntilHeader
    by_cases hl : isHeader l = true
    · rw [if_pos hl]
      exact KeepPh.refl _
    · rw [if_neg hl]
      exact List.Forall₂.cons (Or.inr rfl) ih

theorem set_ph_keepPh (c : List Str) (i : Nat) : KeepPh c (c.set i placeholder) := by
  induction c generalizing i with
  | nil => exact List.Forall₂.nil
  | cons l ls ih =>
    cases i with
    | zero => exact List.Forall₂.cons (Or.inr rfl) (KeepPh.refl ls)
    | succ j => exact List.Forall₂.cons (Or.inl rfl) (ih j)

theorem stripGroupAt_keepPh_set (c : List Str) (i : Nat) :
    KeepPh (c.set i placeholder) (stripGroupAt c i) := by
  show KeepPh (c.set i placeholder)
    ((c.set i placeholder).take i ++ replaceUntilHeader ((c.set i placeholder).drop i))
  have h := KeepPh.append (KeepPh.refl ((c.set i placeholder).take i))
    (replaceUntilHeader_keepPh ((c.set i placeholder).drop i))
  rw [List.take_append_drop i (c.set i placeholder)] at h
  exact h

theorem stripGroupAt_keepPh (c : List Str) (i : Nat) : KeepPh c (stripGroupAt c i) :=
  (set_ph_keepPh c i).trans (stripGroupAt_keepPh_set c i)

theorem count_filter_of_pos {p : Str → Bool} {v : Str} (l : List Str)
    (hv : p v = true) : (l.filter p).count v = l.count v := by
  induction l with
  | nil => rfl
  | cons a as ih =>
    by_cases hp : p a = true
    · rw [List.filter_cons_of_pos hp, List.count_cons, List.count_cons, ih]
    · rw [List.filter_cons_of_neg (by simpa using hp), List.count_cons, ih]
      have : (a == v) = false := by
        by_cases he : a = v
        · rw [he] at hp; exact absurd hv hp
        · exact beq_eq_false_iff_ne.mpr he
      rw [this]
      rfl

theorem count_set_ph {c : List Str} {i : Nat} {v : Str}
    (hget : c.get? i = some v) (hv : v ≠ placeholder) :
    (c.set i placeholder).count v + 1 ≤ c.count v := by
  induction c generalizing i with
  | nil => simp at hget
  | cons l ls ih =>
    cases i with
    | zero =>
      simp only [List.get?] at hget
      cases hget
      rw [List.set_cons_zero, List.count_cons_self, List.count_cons_of_ne hv]
    | succ j =>
      simp only [List.get?] at hget
      rw [List.set_cons_succ]
      by_cases hlv : v = l
      · subst hlv
        rw [List.count_cons_self, List.count_cons_self]
        have := ih hget
        omega
      · rw [List.count_cons_of_ne hlv, List.count_cons_of_ne hlv]
        exact ih hget

theorem foldlM_groupStep_no_marker (g : Str) :
    ∀ (vs : List Str) (c c' : List Str),
      (∀ v ∈ vs, hasSub (marker g) v = true) →
      (∀ v, hasSub (marker g) v = true → c.count v ≤ vs.count v) →
      vs.foldlM groupStep c = some c' →
      ∀ l ∈ c', hasSub (marker g) l = false := by
  intro vs
  induction vs with
  | nil =>
    intro c c' _ hcnt h l hl
    cases h
    by_contra hmark
    rw [Bool.not_eq_false] at hmark
    have h1 : 0 < c.count l := List.count_pos_iff.mpr hl
    have h2 : c.count l ≤ 0 := by simpa using hcnt l hmark
    omega
  | cons v vs ih =>
    intro c c' hvs hcnt h
    simp only [List.foldlM_cons] at h
    cases hstep : groupStep c v with
    | none => rw [hstep] at h; cases h
    | some c1 =>
      rw [hstep] at h
      simp only [Option.bind_eq_bind, Option.some_bind] at h
      have hvm : hasSub (marker g) v = true := hvs v (List.mem_cons_self v vs)
      have hvph : v ≠ placeholder := by
        intro he
        rw [he, marker_placeholder g] at hvm
        cases hvm
      unfold groupStep at hstep
      cases hidx : indexOf? c v with
      | none => rw [hidx] at hstep; cases hstep
      | some idx =>
        rw [hidx] at hstep
        cases hstep
        have hget := indexOf?_getElem hidx
        have hkeep := stripGroupAt_keepPh_set c idx
        apply ih (stripGroupAt c idx) c' (fun w hw => hvs w (List.mem_cons_of_mem _ hw))
          _ h
        intro w hw
        by_cases hwv : w = v
        · subst hwv
          have hle1 : (stripGroupAt c idx).count w ≤ (c.set idx placeholder).count w :=
            hkeep.count_le hvph
          have hle2 : (c.set idx placeholder).count w + 1 ≤ c.count w :=
            count_set_ph hget hvph
          have hle3 : c.count w ≤ (w :: vs).count w := hcnt w hw
          rw [List.count_cons_self] at hle3
          omega
        · have hwph : w ≠ placeholder := by
            intro he
            rw [he, marker_placeholder g] at hw
            cases hw
          have hle1 : (stripGroupAt c idx).count w ≤ (c.set idx placeholder).count w :=
            hkeep.count_le hwph
          have hle2 : (c.set idx placeholder).count w ≤ c.count w :=
            (set_ph_keepPh c idx).count_le hwph
          have hle3 : c.count w ≤ (v :: vs).count w := hcnt w hw
          rw [List.count_cons_of_ne hwv] at hle3
          omega

theorem stripGroup_no_marker {c c' : List Str} {g : Str}
    (h : stripGroup c g = some c') : ∀ l ∈ c', hasSub (marker g) l = false := by
  apply foldlM_groupStep_no_marker g (c.filter (fun l => hasSub (marker g) l)) c c'
    (fun v hv => by simpa using List.of_mem_filter hv) _ h
  intro v hv
  rw [count_filter_of_pos c hv]

theorem foldlM_groupStep_keepPh :
    ∀ (vs : List Str) (c c' : List Str),
      vs.foldlM groupStep c = some c' → KeepPh c c' := by
  intro vs
  induction vs with
  | nil =>
    intro c c' h
    cases h
    exact KeepPh.refl c
  | cons v vs ih =>
    intro c c' h
    simp only [List.foldlM_cons] at h
    cases hstep : groupStep c v with
    | none => rw [hstep] at h; cases h
    | some c1 =>
      rw [hstep] at h
      simp only [Option.bind_eq_bind, Option.some_bind] at h
      unfold groupStep at hstep
      cases hidx : indexOf? c v with
      | none => rw [hidx] at hstep; cases hstep
      | some idx =>
        rw [hidx] at hstep
        cases hstep
        exact (stripGroupAt_keepPh c idx).trans (ih _ c' h)

theorem stripGroup_keepPh {c c' : List Str} {g : Str}
    (h : stripGroup c g = some c') : KeepPh c c' :=
  foldlM_groupStep_keepPh _ c c' h

theorem strip_groups_keepPh :
    ∀ (gs : List Str) (c c' : List Str),
      strip_groups c gs = some c' → KeepPh c c' := by
  intro gs
  induction gs with
  | nil =>
    intro c c' h
    cases h
    exact KeepPh.refl c
  | cons g gs ih =>
    intro c c' h
    unfold strip_groups at h
    simp only [List.foldlM_cons] at h
    cases h1 : stripGroup c g with
    | none => rw [h1] at h; cases h
    | some c1 =>
      rw [h1] at h
      simp only [Option.bind_eq_bind, Option.some_bind] at h
      exact (stripGroup_keepPh h1).trans (ih c1 c' h)

theorem strip_groups_no_marker :
    ∀ (gs : List Str) (c c' : List Str),
      strip_groups c gs = some c' →
      ∀ g ∈ gs, ∀ l ∈ c', hasSub (marker g) l = false := by
  intro gs
  induction gs with
  | nil => intro c c' _ g hg; cases hg
  | cons g0 gs ih =>
    intro c c' h g hg l hl
    unfold strip_groups at h
    simp only [List.foldlM_cons] at h
    cases h1 : stripGroup c g0 with
    | none => rw [h1] at h; cases h
    | some c1 =>
      rw [h1] at h
      simp only [Option.bind_eq_bind, Option.some_bind] at h
      rcases List.mem_cons.mp hg with rfl | hg2
      · rcases (strip_groups_keepPh gs c1 c' h).mem hl with hx | hx
        · exact stripGroup_no_marker h1 l hx
        · rw [hx]; exact marker_placeholder g
      · exact ih c1 c' h g hg2 l hl

theorem stripGroup_of_no_match {c : List Str} {g : Str}
    (h : ∀ l ∈ c, hasSub (marker g) l = false) : stripGroup c g = some c := by
  unfold stripGroup
  rw [List.filter_eq_nil_iff.mpr (fun l hl => by simp [h l hl])]
  rfl

theorem strip_groups_of_no_match :
    ∀ (gs : List Str) (c : List Str),
      (∀ g ∈ gs, ∀ l ∈ c, hasSub (marker g) l = false) →
      strip_groups c gs = some c := by
  intro gs
  induction gs with
  | nil => intro c _; rfl
  | cons g gs ih =>
    intro c h
    unfold strip_groups
    simp only [List.foldlM_cons]
    rw [stripGroup_of_no_match (h g (List.mem_cons_self g gs))]
    simp only [Option.bind_eq_bind, Option.some_bind]
    exact ih c (fun g' hg' => h g' (List.mem_cons_of_mem _ hg'))

theorem strip_keys_of_no_match {c : List Str} {ks : List Str}
    (h : ∀ l ∈ c, ∀ k ∈ ks, hasSub (keymark k) l = false) :
    strip_keys c ks = some c := by
  rw [strip_keys_eq_map]
  apply congrArg some
  calc c.map (fun l => if ks.any (fun k => hasSub (keymark k) l) then placeholder else l)
      = c.map id := by
        apply List.map_eq_map_iff.mpr
        intro l hl
        have : ks.any (fun k => hasSub (keymark k) l) = false := by
          rw [List.any_eq_false]
          intro k hk
          simp [h l hl k hk]
        rw [this]
        rfl
    _ = c := List.map_id c

/-- C4: stripping is idempotent: whenever a strip succeeds, applying the
same strip specification to its output returns the output unchanged (the
output contains no placeholder line, no line with a removed group's marker
and no line with a removed key's marker, so both passes and the final
filter are no-ops). -/
theorem C4_strip_idempotent :
    ∀ (c gs ks out : List Str),
      strip_content c gs ks = some out → strip_content out gs ks = some out := by
  intro c gs ks out h
  unfold strip_content at h
  cases h1 : strip_groups c gs with
  | none => rw [h1] at h; cases h
  | some c1 =>
    rw [h1] at h
    simp only [Option.bind_eq_bind, Option.some_bind] at h
    cases h2 : strip_keys c1 ks with
    | none => rw [h2] at h; cases h
    | some c2 =>
      rw [h2] at h
      simp only [Option.some_bind, Option.some.injEq] at h
      subst h
      have hc2 : c2 = c1.map (fun l =>
          if ks.any (fun k => hasSub (keymark k) l) then placeholder else l) := by
        rw [strip_keys_eq_map] at h2
        exact (Option.some.injEq _ _ ▸ h2.symm :)
      have hout : ∀ l ∈ c2.filter (fun l => !(l == placeholder)),
          l ∈ c2 ∧ l ≠ placeholder := by
        intro l hl
        refine ⟨List.mem_of_mem_filter hl, ?_⟩
        have := List.of_mem_filter hl
        simpa using this
      have hkeys : ∀ l ∈ c2.filter (fun l => !(l == placeholder)),
          ∀ k ∈ ks, hasSub (keymark k) l = false := by
        intro l hl k hk
        obtain ⟨hlc2, hlph⟩ := hout l hl
        rw [hc2] at hlc2
        obtain ⟨orig, horig, hfo⟩ := List.mem_map.mp hlc2
        by_cases hany : ks.any (fun k => hasSub (keymark k) orig) = true
        · rw [hany] at hfo
          simp at hfo
          exact absurd hfo.symm hlph
        · rw [Bool.not_eq_true] at hany
          rw [hany] at hfo
          simp only [Bool.false_eq_true, if_false] at hfo
          subst hfo
          simpa using (List.any_eq_false.mp hany) k hk
      have hmarkers : ∀ l ∈ c2.filter (fun l => !(l == placeholder)),
          ∀ g ∈ gs, hasSub (marker g) l = false := by
        intro l hl g hg
        obtain ⟨hlc2, hlph⟩ := hout l hl
        rw [hc2] at hlc2
        obtain ⟨orig, horig, hfo⟩ := List.mem_map.mp hlc2
        by_cases hany : ks.any (fun k => hasSub (keymark k) orig) = true
        · rw [hany] at hfo
          simp at hfo
          exact absurd hfo.symm hlph
        · rw [Bool.not_eq_true] at hany
          rw [hany] at hfo
          simp only [Bool.false_eq_true, if_false] at hfo
          subst hfo
          exact strip_groups_no_marker gs c c1 h1 g hg orig horig
      unfold strip_content
      rw [strip_groups_of_no_match gs _ (fun g hg l hl => hmarkers l hl g hg)]
      simp only [Option.bind_eq_bind, Option.some_bind]
      rw [strip_keys_of_no_match (fun l hl k hk => hkeys l hl k hk)]
      simp only [Option.some_bind, Option.some.injEq]
      apply List.filter_eq_self.mpr
      intro l hl
      have := List.of_mem_filter hl
      simpa using this

/-- C4 (witness): idempotence at the claim's example input. -/
theorem C4_witness :
    strip_content ["[Other]".data, "c=3".data] ["General".data] [] =
      some ["[Other]".data, "c=3".data] :=
  C4_strip_idempotent
    ["[General]".data, "a=1".data, "b=2".data, "[Other]".data, "c=3".data]
    ["General".data] [] ["[Other]".data, "c=3".data] (by decide)

/-- C6: the key pass replaces exactly the lines containing `key=` for some
key (each such line becomes the placeholder, all others are untouched), the
key pass runs on the output of the group pass (all group removals precede
all key removals), and the claim's concrete example holds. -/
theorem C6_key_removal :
    (∀ (c : List Str) (ks : List Str),
      strip_keys c ks = some (c.map (fun l =>
        if ks.any (fun k => hasSub (keymark k) l) then placeholder else l))) ∧
    (∀ (c gs ks : List Str),
      strip_content c gs ks = (strip_groups c gs).bind
        (fun c1 => (strip_keys c1 ks).map
          (fun c2 => c2.filter (fun l => !(l == placeholder))))) ∧
    strip_content ["[General]".data, "Theme=dark".data, "Size=10".data] []
      ["Theme".data] = some ["[General]".data, "Size=10".data] := by
  refine ⟨fun c ks => strip_keys_eq_map ks c, ?_, by decide⟩
  intro c gs ks
  unfold strip_content
  cases strip_groups c gs with
  | none => rfl
  | some c1 =>
    simp only [Option.bind_eq_bind, Option.some_bind]
    cases strip_keys c1 ks <;> rfl

/-! ### Null normalization and manifest round-trip -/

mutual

theorem convertN_noNull : ∀ y : Node, noNullN (convertN y) = true
  | Node.null => rfl
  | Node.scalar _ => rfl
  | Node.seq xs => convertL_noNull xs
  | Node.mapn kvs => convertKV_noNull kvs

theorem convertL_noNull : ∀ xs : List Node, noNullL (convertL xs) = true
  | [] => rfl
  | n :: ns => by
    show (noNullN (convertN n) && noNullL (convertL ns)) = true
    rw [convertN_noNull n, convertL_noNull ns]
    rfl

theorem convertKV_noNull : ∀ kvs : List (Str × Node), noNullKV (convertKV kvs) = true
  | [] => rfl
  | kv :: kvs => by
    show (noNullN (convertN kv.2) && noNullKV (convertKV kvs)) = true
    rw [convertN_noNull kv.2, convertKV_noNull kvs]
    rfl

end

mutual

theorem convertN_id : ∀ y : Node, noNullN y = true → convertN y = y
  | Node.null, h => by cases h
  | Node.scalar _, _ => rfl
  | Node.seq xs, h => by
    show Node.seq (convertL xs) = Node.seq xs
    rw [convertL_id xs h]
  | Node.mapn kvs, h => by
    show Node.mapn (convertKV kvs) = Node.mapn kvs
    rw [convertKV_id kvs h]

theorem convertL_id : ∀ xs : List Node, noNullL xs = true → convertL xs = xs
  | [], _ => rfl
  | n :: ns, h => by
    obtain ⟨h1, h2⟩ := Bool.and_eq_true_iff.mp h
    show convertN n :: convertL ns = n :: ns
    rw [convertN_id n h1, convertL_id ns h2]

theorem convertKV_id : ∀ kvs : List (Str × Node), noNullKV kvs = true → convertKV kvs = kvs
  | [], _ => rfl
  | kv :: kvs, h => by
    obtain ⟨h1, h2⟩ := Bool.and_eq_true_iff.mp h
    show (kv.1, convertN kv.2) :: convertKV kvs = kv :: kvs
    rw [convertN_id kv.2 h1, convertKV_id kvs h2]

end

theorem noNull_scalars (xs : List Str) : noNullL (xs.map Node.scalar) = true := by
  induction xs with
  | nil => rfl
  | cons x xs ih =>
    show (noNullN (Node.scalar x) && noNullL (xs.map Node.scalar)) = true
    rw [ih]
    rfl

theorem StripEntry_to_dict_noNull (s : StripEntry) : noNullN s.to_dict = true := by
  show (noNullN (Node.seq (s.groups.map Node.scalar)) &&
    (noNullN (Node.seq (s.keys.map Node.scalar)) && true)) = true
  show (noNullL (s.groups.map Node.scalar) && (noNullL (s.keys.map Node.scalar) && true)) = true
  rw [noNull_scalars, noNull_scalars]
  rfl

theorem noNull_strips (strips : List (Str × StripEntry)) :
    noNullKV (strips.map (fun kv => (kv.1, kv.2.to_dict))) = true := by
  induction strips with
  | nil => rfl
  | cons kv kvs ih =>
    show (noNullN kv.2.to_dict && noNullKV (kvs.map (fun kv => (kv.1, kv.2.to_dict)))) = true
    rw [StripEntry_to_dict_noNull, ih]
    rfl

theorem ConfEntry_to_dict_noNull (e : ConfEntry) : noNullN e.to_dict = true := by
  unfold ConfEntry.to_dict
  by_cases hs : e.strips.isEmpty
  · rw [if_pos hs]
    show (true && (noNullL (e.entries.map Node.scalar) && true)) = true
    rw [noNull_scalars]
    rfl
  · rw [if_neg hs]
    show (true && (noNullL (e.entries.map Node.scalar) &&
      (noNullKV (e.strips.map (fun kv => (kv.1, kv.2.to_dict))) && true))) = true
    rw [noNull_scalars, noNull_strips]
    rfl

theorem Section_to_dict_noNull (s : Section) : noNullN s.to_dict = true := by
  show noNullKV (s.entries.map (fun kv => (kv.1, kv.2.to_dict))) = true
  induction s.entries with
  | nil => rfl
  | cons kv kvs ih =>
    show (noNullN kv.2.to_dict && noNullKV (kvs.map (fun kv => (kv.1, kv.2.to_dict)))) = true
    rw [ConfEntry_to_dict_noNull, ih]
    rfl

theorem Config_to_dict_noNull (c : Config) : noNullN c.to_dict = true := by
  show noNullKV (c.sections.map (fun kv => (kv.1, kv.2.to_dict))) = true
  induction c.sections with
  | nil => rfl
  | cons kv kvs ih =>
    show (noNullN kv.2.to_dict && noNullKV (kvs.map (fun kv => (kv.1, kv.2.to_dict)))) = true
    rw [Section_to_dict_noNull, ih]
    rfl

theorem mapMO_scalars (xs : List Str) : mapMO asStr (xs.map Node.scalar) = some xs := by
  induction xs with
  | nil => rfl
  | cons x xs ih =>
    show (match asStr (Node.scalar x) with
      | none => none
      | some b => (mapMO asStr (xs.map Node.scalar)).map (b :: ·)) = some (x :: xs)
    rw [show asStr (Node.scalar x) = some x from rfl]
    simp only [ih, Option.map_some']

theorem StripEntry_roundtrip (s : StripEntry) :
    StripEntry.from_dict
      [("groups".data, Node.seq (s.groups.map Node.scalar)),
       ("keys".data, Node.seq (s.keys.map Node.scalar))] = some s := by
  unfold StripEntry.from_dict
  rw [show getKey [("groups".data, Node.seq (s.groups.map Node.scalar)),
       ("keys".data, Node.seq (s.keys.map Node.scalar))] "groups".data =
    some (Node.seq (s.groups.map Node.scalar)) from rfl]
  rw [show getKey [("groups".data, Node.seq (s.groups.map Node.scalar)),
       ("keys".data, Node.seq (s.keys.map Node.scalar))] "keys".data =
    some (Node.seq (s.keys.map Node.scalar)) from rfl]
  simp only [Option.bind_eq_bind, Option.some_bind]
  show ((asStrList (Node.seq (s.groups.map Node.scalar))) >>= fun g =>
    (asStrList (Node.seq (s.keys.map Node.scalar))) >>= fun k =>
      some (⟨k, g⟩ : StripEntry)) = some s
  rw [show asStrList (Node.seq (s.groups.map Node.scalar)) =
    mapMO asStr (s.groups.map Node.scalar) from rfl, mapMO_scalars]
  rw [show asStrList (Node.seq (s.keys.map Node.scalar)) =
    mapMO asStr (s.keys.map Node.scalar) from rfl, mapMO_scalars]
  rfl

theorem mapMO_strips (strips : List (Str × StripEntry)) :
    mapMO (fun kv => (StripEntry.from_dict (match kv.2 with
        | Node.mapn m => m
        | _ => [])).map (fun s => (kv.1, s)))
      (strips.map (fun kv => (kv.1, kv.2.to_dict))) = some strips := by
  induction strips with
  | nil => rfl
  | cons kv kvs ih =>
    rw [List.map_cons]
    simp only [mapMO]
    rw [show (match kv.2.to_dict with
        | Node.mapn m => m
        | _ => []) =
      [("groups".data, Node.seq (kv.2.groups.map Node.scalar)),
       ("keys".data, Node.seq (kv.2.keys.map Node.scalar))] from rfl]
    rw [StripEntry_roundtrip kv.2]
    simp only [Option.map_some', ih]

theorem ConfEntry_parse_to_dict {fs : Str → Option (List Str)}
    (e : ConfEntry) {e' : ConfEntry}
    (h : (match ConfEntry.to_dict e with
      | Node.mapn m => ConfEntry.from_dict fs m
      | _ => none) = some e') :
    ConfEntry.to_dict e' = ConfEntry.to_dict e := by
  by_cases hs : e.strips.isEmpty
  · have hsnil : e.strips = [] := List.isEmpty_iff.mp hs
    rw [show ConfEntry.to_dict e =
      Node.mapn [("location".data, Node.scalar e.localtion_original),
                 ("entries".data, Node.seq (e.entries.map Node.scalar))] from by
        unfold ConfEntry.to_dict
        rw [if_pos hs]] at h
    simp only at h
    unfold ConfEntry.from_dict at h
    rw [show getKey [("location".data, Node.scalar e.localtion_original),
      ("entries".data, Node.seq (e.entries.map Node.scalar))] "strip".data = none
      from rfl] at h
    rw [show getKey [("location".data, Node.scalar e.localtion_original),
      ("entries".data, Node.seq (e.entries.map Node.scalar))] "location".data =
      some (Node.scalar e.localtion_original) from rfl] at h
    rw [show getKey [("location".data, Node.scalar e.localtion_original),
      ("entries".data, Node.seq (e.entries.map Node.scalar))] "entries".data =
      some (Node.seq (e.entries.map Node.scalar)) from rfl] at h
    simp only [Option.bind_eq_bind, Option.some_bind,
      show asStr (Node.scalar e.localtion_original) = some e.localtion_original from rfl,
      show asStrList (Node.seq (e.entries.map Node.scalar)) =
        mapMO asStr (e.entries.map Node.scalar) from rfl,
      mapMO_scalars] at h
    cases hexp : expand fs e.localtion_original with
    | none => rw [hexp] at h; cases h
    | some x =>
      rw [hexp] at h
      simp only [Option.some_bind, Option.some.injEq] at h
      subst h
      show ConfEntry.to_dict ⟨x, e.localtion_original, e.entries, []⟩ =
        ConfEntry.to_dict e
      unfold ConfEntry.to_dict
      rw [if_pos hs]
      rfl
  · have hne : ¬ e.strips.isEmpty = true := hs
    rw [show ConfEntry.to_dict e =
      Node.mapn [("location".data, Node.scalar e.localtion_original),
                 ("entries".data, Node.seq (e.entries.map Node.scalar)),
                 ("strip".data,
                   Node.mapn (e.strips.map (fun kv => (kv.1, kv.2.to_dict))))] from by
        unfold ConfEntry.to_dict
        rw [if_neg hne]
        rfl] at h
    simp only at h
    unfold ConfEntry.from_dict at h
    rw [show getKey [("location".data, Node.scalar e.localtion_original),
      ("entries".data, Node.seq (e.entries.map Node.scalar)),
      ("strip".data, Node.mapn (e.strips.map (fun kv => (kv.1, kv.2.to_dict))))]
      "strip".data =
      some (Node.mapn (e.strips.map (fun kv => (kv.1, kv.2.to_dict)))) from rfl] at h
    rw [show getKey [("location".data, Node.scalar e.localtion_original),
      ("entries".data, Node.seq (e.entries.map Node.scalar)),
      ("strip".data, Node.mapn (e.strips.map (fun kv => (kv.1, kv.2.to_dict))))]
      "location".data = some (Node.scalar e.localtion_original) from rfl] at h
    rw [show getKey [("location".data, Node.scalar e.localtion_original),
      ("entries".data, Node.seq (e.entries.map Node.scalar)),
      ("strip".data, Node.mapn (e.strips.map (fun kv => (kv.1, kv.2.to_dict))))]
      "entries".data = some (Node.seq (e.entries.map Node.scalar)) from rfl] at h
    simp only [mapMO_strips, Option.bind_eq_bind, Option.some_bind,
      show asStr (Node.scalar e.localtion_original) = some e.localtion_original from rfl,
      show asStrList (Node.seq (e.entries.map Node.scalar)) =
        mapMO asStr (e.entries.map Node.scalar) from rfl,
      mapMO_scalars] at h
    cases hexp : expand fs e.localtion_original with
    | none => rw [hexp] at h; cases h
    | some x =>
      rw [hexp] at h
      simp only [Option.some_bind, Option.some.injEq] at h
      subst h
      unfold ConfEntry.to_dict
      rw [if_neg hne]

theorem entries_parse_to_dict {fs : Str → Option (List Str)} :
    ∀ (ents ents' : List (Str × ConfEntry)),
      mapMO (fun kv => match kv.2 with
        | Node.mapn m => (ConfEntry.from_dict fs m).map (fun e => (kv.1, e))
        | _ => none) (ents.map (fun kv => (kv.1, kv.2.to_dict))) = some ents' →
      ents'.map (fun kv => (kv.1, kv.2.to_dict)) =
        ents.map (fun kv => (kv.1, kv.2.to_dict)) := by
  intro ents
  induction ents with
  | nil =>
    intro ents' h
    cases h
    rfl
  | cons kv ents ih =>
    intro ents' h
    rw [List.map_cons] at h
    simp only [mapMO] at h
    have hm : ∃ m, ConfEntry.to_dict kv.2 = Node.mapn m := by
      unfold ConfEntry.to_dict
      by_cases hs : kv.2.strips.isEmpty
      · rw [if_pos hs]; exact ⟨_, rfl⟩
      · rw [if_neg hs]; exact ⟨_, rfl⟩
    obtain ⟨m, hmeq⟩ := hm
    rw [hmeq] at h
    simp only at h
    cases hent : ConfEntry.from_dict fs m with
    | none => rw [hent] at h; cases h
    | some e2 =>
      rw [hent] at h
      simp only [Option.map_some'] at h
      cases hrest : mapMO (fun kv => match kv.2 with
        | Node.mapn m => (ConfEntry.from_dict fs m).map (fun e => (kv.1, e))
        | _ => none) (ents.map (fun kv => (kv.1, kv.2.to_dict))) with
      | none => rw [hrest] at h; cases h
      | some ents2 =>
        rw [hrest] at h
        simp only [Option.map_some', Option.some.injEq] at h
        subst h
        rw [List.map_cons, List.map_cons]
        have he2 : ConfEntry.to_dict e2 = ConfEntry.to_dict kv.2 :=
          ConfEntry_parse_to_dict kv.2 (by rw [hmeq]; exact hent)
        rw [ih ents2 hrest]
        simp [he2]

theorem sections_parse_to_dict {fs : Str → Option (List Str)} :
    ∀ (secs secs' : List (Str × Section)),
      mapMO (fun kv => match kv.2 with
        | Node.mapn m => (Section.from_dict fs m).map (fun s => (kv.1, s))
        | _ => none) (secs.map (fun kv => (kv.1, kv.2.to_dict))) = some secs' →
      secs'.map (fun kv => (kv.1, kv.2.to_dict)) =
        secs.map (fun kv => (kv.1, kv.2.to_dict)) := by
  intro secs
  induction secs with
  | nil =>
    intro secs' h
    cases h
    rfl
  | cons kv secs ih =>
    intro secs' h
    rw [List.map_cons] at h
    simp only [mapMO] at h
    rw [show Section.to_dict kv.2 =
      Node.mapn (kv.2.entries.map (fun kv => (kv.1, kv.2.to_dict))) from rfl] at h
    simp only at h
    cases hsec : Section.from_dict fs
        (kv.2.entries.map (fun kv => (kv.1, kv.2.to_dict))) with
    | none => rw [hsec] at h; cases h
    | some s2 =>
      rw [hsec] at h
      simp only [Option.map_some'] at h
      cases hrest : mapMO (fun kv => match kv.2 with
        | Node.mapn m => (Section.from_dict fs m).map (fun s => (kv.1, s))
        | _ => none) (secs.map (fun kv => (kv.1, kv.2.to_dict))) with
      | none => rw [hrest] at h; cases h
      | some secs2 =>
        rw [hrest] at h
        simp only [Option.map_some', Option.some.injEq] at h
        subst h
        rw [List.map_cons, List.map_cons]
        have hs2 : Section.to_dict s2 = Section.to_dict kv.2 := by
          unfold Section.from_dict at hsec
          simp only [Option.bind_eq_bind] at hsec
          cases hents : mapMO (fun kv => match kv.2 with
            | Node.mapn m => (ConfEntry.from_dict fs m).map (fun e => (kv.1, e))
            | _ => none) (kv.2.entries.map (fun kv => (kv.1, kv.2.to_dict))) with
          | none => rw [hents] at hsec; cases hsec
          | some ents2 =>
            rw [hents] at hsec
            simp only [Option.some_bind, Option.some.injEq] at hsec
            subst hsec
            show Node.mapn (ents2.map (fun kv => (kv.1, kv.2.to_dict))) =
              Node.mapn (kv.2.entries.map (fun kv => (kv.1, kv.2.to_dict)))
            rw [entries_parse_to_dict kv.2.entries ents2 hents]
        rw [ih secs2 hrest]
        simp [hs2]

/-- C5: parsing a serialized manifest and re-serializing yields a tree
structurally identical to the first serialization (whenever parsing
succeeds — the parse re-runs path expansion, whose failures propagate);
serialization reproduces the entry's original raw location — never the
expanded one — and omits the `strip` key exactly when the strips mapping is
empty. -/
theorem C5_roundtrip :
    (∀ (fs : Str → Option (List Str)) (c c' : Config),
      Config.parse fs (Config.to_dict c) = some c' →
      Config.to_dict c' = Config.to_dict c) ∧
    (∀ e : ConfEntry,
      nodeGet (ConfEntry.to_dict e) "location".data =
        some (Node.scalar e.localtion_original) ∧
      (nodeGet (ConfEntry.to_dict e) "strip".data = none ↔ e.strips = [])) := by
  constructor
  · intro fs c c' h
    unfold Config.parse at h
    rw [convertN_id _ (Config_to_dict_noNull c)] at h
    rw [show Config.to_dict c =
      Node.mapn (c.sections.map (fun kv => (kv.1, kv.2.to_dict))) from rfl] at h
    simp only at h
    cases hsecs : mapMO (fun kv => match kv.2 with
      | Node.mapn m => (Section.from_dict fs m).map (fun s => (kv.1, s))
      | _ => none) (c.sections.map (fun kv => (kv.1, kv.2.to_dict))) with
    | none => rw [hsecs] at h; cases h
    | some secs' =>
      rw [hsecs] at h
      simp only [Option.map_some', Option.some.injEq] at h
      subst h
      show Node.mapn (secs'.map (fun kv => (kv.1, kv.2.to_dict))) =
        Node.mapn (c.sections.map (fun kv => (kv.1, kv.2.to_dict)))
      rw [sections_parse_to_dict c.sections secs' hsecs]
  · intro e
    by_cases hs : e.strips.isEmpty
    · have htd : ConfEntry.to_dict e =
        Node.mapn [("location".data, Node.scalar e.localtion_original),
                   ("entries".data, Node.seq (e.entries.map Node.scalar))] := by
        unfold ConfEntry.to_dict
        rw [if_pos hs]
      rw [htd]
      refine ⟨rfl, ?_⟩
      show (none : Option Node) = none ↔ e.strips = []
      simpa using List.isEmpty_iff.mp hs
    · have htd : ConfEntry.to_dict e =
        Node.mapn [("location".data, Node.scalar e.localtion_original),
                   ("entries".data, Node.seq (e.entries.map Node.scalar)),
                   ("strip".data,
                     Node.mapn (e.strips.map (fun kv => (kv.1, kv.2.to_dict))))] := by
        unfold ConfEntry.to_dict
        rw [if_neg hs]
        rfl
      rw [htd]
      refine ⟨rfl, ?_⟩
      show (some (Node.mapn (e.strips.map (fun kv => (kv.1, kv.2.to_dict)))) :
        Option Node) = none ↔ e.strips = []
      constructor
      · intro hcon; cases hcon
      · intro hnil
        rw [hnil] at hs
        exact absurd rfl hs

/-- A concrete one-section, one-entry manifest used as the round-trip
witness. -/
def configW : Config :=
  ⟨[("save".data, ⟨[("kde".data,
      ⟨"x".data, "x".data, ["a".data, "b".data],
       [("a".data, ⟨["k".data], ["g".data]⟩)]⟩)]⟩)]⟩

/-- C5 (witness): the round-trip theorem applied to a concrete manifest
whose location needs no filesystem access to expand. -/
theorem C5_witness :
    Config.parse (fun _ => none) (Config.to_dict configW) = some configW ∧
    Config.to_dict configW = Config.to_dict configW :=
  ⟨rfl, C5_roundtrip.1 (fun _ => none) configW configW rfl⟩

set_option maxHeartbeats 2000000 in
/-- C8 (amended): the recursive normalization replaces every null in the
tree by an empty list before sections and entries are interpreted, and a
null `entries` list parses to an empty entry list (iterating it performs
zero work); a null `strip` map, however, is normalized to an empty list and
the `Config` entry parser then fails on it (Python `list.keys()` raises
`AttributeError`), so parsing is not raise-free for null strip maps. -/
theorem C8_null_normalization :
    (∀ y : Node, noNullN (convertN y) = true) ∧
    (∀ (fs : Str → Option (List Str)),
      Config.parse fs (Node.mapn [("save".data, Node.mapn [("e".data,
        Node.mapn [("location".data, Node.scalar "x".data),
                   ("entries".data, Node.null)])])]) =
      some ⟨[("save".data, ⟨[("e".data, ⟨"x".data, "x".data, [], []⟩)]⟩)]⟩) :=
  ⟨convertN_noNull, fun _ => rfl⟩

/-- C8 (counterexample): a manifest whose entry has `strip:` null parses
with an error in the `Config` loader — the normalized empty list is not a
mapping — contradicting the claim that normalized nulls never raise. -/
theorem C8_counterexample :
    Config.parse (fun _ => none) (Node.mapn [("save".data, Node.mapn [("e".data,
      Node.mapn [("location".data, Node.scalar "x".data),
                 ("entries".data, Node.null),
                 ("strip".data, Node.null)])])]) = none := rfl

/-- C7 (witness): both branches at concrete directory listings. -/
theorem C7_witness :
    expand (fun p => if p = [] then some ["other.txt".data, "app.conf".data] else none)
      "$\x7bENDS_WITH='conf'\x7d".data = some "app.conf".data ∧
    expand (fun p => if p = [] then some ["x".data] else none)
      "$\x7bENDS_WITH='conf'\x7d".data = some "$\x7bENDS_WITH='conf'\x7d".data :=
  ⟨(C7_ends_with_conf _ ["other.txt".data, "app.conf".data] (by decide)).1
      ⟨by decide, by decide⟩,
   (C7_ends_with_conf _ ["x".data] (by decide)).2 (by decide)⟩

end Konsave
